import Mathlib

/-!
# Verification of the archeo importance-sampling / Bayes-factor engine

Shallow embedding of `src/archeo/core/forward/resampler/{base,assume_independence,generic}.py`,
`src/archeo/core/forward/resampler.py` and `src/archeo/core/forward/bayes_factor.py`.

Modelling conventions:
* Python/NumPy floating-point numbers are modelled as exact rationals (`ℚ`).
  All quantities the code manipulates (histogram densities, bin widths, ratios,
  weights) are ratios of integers when the inputs are rational, so the exact
  model tracks the float code up to rounding.
* `np.histogram(samples, bins=nbins, range=(low, high), density=True)` puts a
  sample `x` into bin `i` iff `edges[i] ≤ x < edges[i+1]` (the last bin also
  includes `x = high`); samples outside `[low, high]` are dropped; the density
  is `counts[i] / (counts.sum() * binwidth)`.  With exact rational edges the
  NumPy `searchsorted`-based binning coincides with taking the floor of
  `(x - low) * nbins / (high - low)`.
* Division by zero in `ℚ` yields `0` where NumPy would produce `inf`/`nan`
  (e.g. the density of a histogram with no in-range samples).  Every theorem
  below that touches such a configuration is stated so that the observable
  outcome (which branch is taken, which value is returned) agrees with the
  NumPy behaviour; this is noted at each definition concerned.
* Python exceptions are modelled with `Except String`; a function that can
  only log (the `local_logger.warning` calls) is modelled as total, returning
  the logged condition as a `Bool` flag.
-/

namespace Archeo

/-- `Domain` from `archeo/schema.py`: a closed interval with fields `low`, `high`. -/
structure Domain where
  low : ℚ
  high : ℚ
deriving Repr, DecidableEq

/-- Python `int()` applied to a float: truncation toward zero. -/
def pyInt (q : ℚ) : ℤ :=
  if 0 ≤ q then ⌊q⌋ else -⌊-q⌋

/-- `np.linspace low high num`: `num` evenly spaced points from `low` to `high`
inclusive.  For `num ≥ 2` the step is `(high - low) / (num - 1)` and the last
point is exactly `high`. -/
def linspace (low high : ℚ) (num : ℕ) : List ℚ :=
  if num = 0 then []
  else if num = 1 then [low]
  else (List.range num).map fun i : ℕ => low + (high - low) * (i : ℚ) / ((num : ℚ) - 1)

/-- Bin index assigned by `np.histogram` with `range=(low, high)` and `nbins`
equal-width bins: `none` iff the sample is out of range (or `nbins = 0`).
A sample equal to `high` goes into the last bin. -/
def binIndex? (nbins : ℕ) (low high x : ℚ) : Option ℕ :=
  if low ≤ x ∧ x ≤ high ∧ 0 < nbins then
    if x = high then some (nbins - 1)
    else some (Int.toNat ⌊(x - low) * nbins / (high - low)⌋)
  else none

/-- Per-bin counts of `np.histogram(samples, bins=nbins, range=(low, high))`. -/
def counts1d (samples : List ℚ) (nbins : ℕ) (low high : ℚ) : List ℕ :=
  (List.range nbins).map fun i => samples.countP fun x => binIndex? nbins low high x = some i

/-- Density histogram of `np.histogram(..., density=True)`:
`counts[i] / (counts.sum() * binwidth)`.  If no sample is in range the NumPy
result is `nan` (0/0); in `ℚ` it is `0` — both fail the area check below. -/
def histDensity1d (samples : List ℚ) (nbins : ℕ) (low high : ℚ) : List ℚ :=
  let cs := counts1d samples nbins low high
  cs.map fun c : ℕ => (c : ℚ) / ((cs.sum : ℚ) * ((high - low) / nbins))

/-- Absolute value, written out so that the kernel can evaluate it. -/
def ratAbs (q : ℚ) : ℚ := if q < 0 then -q else q

/-- `np.isclose(a, b)` with `atol = 1e-6` as passed by the histogram check and
NumPy's default `rtol = 1e-5`: `|a - b| ≤ atol + rtol * |b|`. -/
def npIsCloseAtol6 (a b : ℚ) : Bool :=
  ratAbs (a - b) ≤ 1/1000000 + (1/100000) * ratAbs b

/-- Result of the histogram helpers: the returned array plus whether the
`Invalid probability distribution` warning was logged.  The Python code never
raises here — it logs and falls through to `return hist`. -/
structure HistResult where
  hist : List ℚ
  warned : Bool
deriving Repr, DecidableEq

/-- `get_histogram_1d` from `assume_independence.py` (identical to
`get_histogram` in `resampler.py`): builds the density histogram, computes
`auc = np.sum(hist) * binwidth`, logs a warning if `auc` is not close to 1,
and returns the histogram unconditionally. -/
def get_histogram_1d (samples : List ℚ) (nbins : ℕ) (low high : ℚ) : HistResult :=
  let hist := histDensity1d samples nbins low high
  let auc := hist.sum * ((high - low) / nbins)
  { hist := hist, warned := ! npIsCloseAtol6 auc 1 }

/-- `_safe_divide` from `base.py` / `resampler.py`:
`np.where(b > ztol, np.exp(np.log(a) - np.log(b)), 0.0)` elementwise.
For `a ≥ 0` and `b > ztol ≥ 0`, `exp(log a - log b) = a / b` (NumPy evaluates
`exp(log 0 - log b) = exp(-inf) = 0 = 0 / b`), so the selected branch is the
exact quotient. -/
def safe_divide (a b : List ℚ) (ztol : ℚ) : List ℚ :=
  List.zipWith (fun x y => if ztol < y then x / y else 0) a b

/-- pdf of `scipy.stats.rv_histogram((hist, edges))` evaluated at `x`.
scipy renormalises the given histogram by `sum(hist * diff(edges))` and looks
the bin up by `searchsorted(edges, x, side='right')` into the pdf array padded
with a zero on each side: values outside `[low, high)` — including `x = high`
exactly, which hits the trailing zero pad — evaluate to 0.  If the
normalising constant is zero scipy produces `nan` (modelled as 0; every use
proved below yields the same observable branch/output either way). -/
def rvPdf (hist : List ℚ) (nbins : ℕ) (low high : ℚ) (x : ℚ) : ℚ :=
  if low ≤ x ∧ x < high then
    match binIndex? nbins low high x with
    | some i => hist.getD i 0 / (hist.sum * ((high - low) / nbins))
    | none => 0
  else 0

/-! ## Multidimensional histograms (`generic.py`) -/

/-- Per-dimension bin layout: `(nbins, low, high)`. -/
abbrev BinsDD := List (ℕ × ℚ × ℚ)

/-- Total number of cells of the flattened N-D histogram. -/
def binsProd (bins : BinsDD) : ℕ := (bins.map fun b => b.1).prod

/-- Volume of one N-D cell: the product of the per-dimension bin widths. -/
def binVolume (bins : BinsDD) : ℚ := (bins.map fun b => (b.2.2 - b.2.1) / (b.1 : ℚ)).prod

/-- Flattened (row-major) cell index assigned by `np.histogramdd` to a row:
`none` iff some coordinate is out of its range (such rows are dropped). -/
def rowIndex? : BinsDD → List ℚ → Option ℕ
  | [], [] => some 0
  | b :: bs, x :: xs => do
    let i ← binIndex? b.1 b.2.1 b.2.2 x
    let r ← rowIndex? bs xs
    pure (i * binsProd bs + r)
  | _, _ => none

/-- Per-cell counts of `np.histogramdd`, flattened row-major. -/
def countsDD (rows : List (List ℚ)) (bins : BinsDD) : List ℕ :=
  (List.range (binsProd bins)).map fun cell => rows.countP fun r => rowIndex? bins r = some cell

/-- Flattened density of `np.histogramdd(..., density=True)`:
`counts[cell] / (counts.sum() * cell_volume)`. -/
def histDensityDD (rows : List (List ℚ)) (bins : BinsDD) : List ℚ :=
  let cs := countsDD rows bins
  cs.map fun c : ℕ => (c : ℚ) / ((cs.sum : ℚ) * binVolume bins)

/-- `get_histogram_dd` from `generic.py`: density N-D histogram; computes
`auc = np.sum(hist) * bin_volume`, logs a warning when `auc` is not close to
1, and returns the histogram unconditionally. -/
def get_histogram_dd (rows : List (List ℚ)) (bins : BinsDD) : HistResult :=
  let hist := histDensityDD rows bins
  let auc := hist.sum * binVolume bins
  { hist := hist, warned := ! npIsCloseAtol6 auc 1 }

/-! ## DataFrames and the importance-sampling data object -/

/-- A pandas `DataFrame` restricted to what the engine reads: an ordered
association of column names to equal-length numeric columns. -/
abbrev DataFrame := List (String × List ℚ)

/-- Column lookup; `none` when the column is absent. -/
def getCol? (df : DataFrame) (c : String) : Option (List ℚ) := df.lookup c

/-- Column lookup defaulting to the empty column. -/
def getCol (df : DataFrame) (c : String) : List ℚ := (df.lookup c).getD []

/-- The column names of a dataframe, in order. -/
def dfCols (df : DataFrame) : List String := df.map Prod.fst

/-- `len(df)`: the number of rows (length of the first column). -/
def nRows (df : DataFrame) : ℕ :=
  match df with
  | [] => 0
  | (_, v) :: _ => v.length

/-- A dataframe is well-formed when all columns have the row count. -/
def WFFrame (df : DataFrame) : Prop := ∀ p ∈ df, (p.2 : List ℚ).length = nRows df

instance (df : DataFrame) : Decidable (WFFrame df) := by
  unfold WFFrame; infer_instance

/-- `df[cols]` viewed row-wise: row `i` lists the value of each requested
column at index `i`. -/
def dfRows (df : DataFrame) (cols : List String) : List (List ℚ) :=
  (List.range (nRows df)).map fun i => cols.map fun c => (getCol df c).getD i 0

/-- Minimum of a column (`Series.min()`); junk value 0 on an empty column
(pandas returns `nan` there; theorems assume non-empty columns). -/
def listMin : List ℚ → ℚ
  | [] => 0
  | x :: xs => xs.foldl min x

/-- Maximum of a column (`Series.max()`); junk value 0 on an empty column. -/
def listMax : List ℚ → ℚ
  | [] => 0
  | x :: xs => xs.foldl max x

/-- `ImportanceSamplingDataBase` from `base.py` (also the dataclass fields of
`ImportanceSamplingData` in `resampler.py`). -/
structure ISData where
  posterior_samples : DataFrame
  prior_samples : DataFrame
  new_prior_samples : DataFrame
  binsize_spin : ℚ := 1/20
  binsize_mass : ℚ := 1
deriving Repr, DecidableEq

/-- `common_columns` from `base.py`: the columns present in all three frames.
Python materialises a `set` intersection whose iteration order is arbitrary;
we keep the posterior's column order (all uses below combine per-column
contributions by `*`/`∏`, which is order-independent). -/
def common_columns (d : ISData) : List String :=
  (dfCols d.posterior_samples).filter fun c =>
    (getCol? d.prior_samples c).isSome && (getCol? d.new_prior_samples c).isSome

/-- `_compute_bounds` from `base.py`, for one common column: the min of the
three column minima and the max of the three maxima. -/
def boundsOf (d : ISData) (c : String) : Domain :=
  { low := min (listMin (getCol d.posterior_samples c))
      (min (listMin (getCol d.prior_samples c)) (listMin (getCol d.new_prior_samples c)))
    high := max (listMax (getCol d.posterior_samples c))
      (max (listMax (getCol d.prior_samples c)) (listMax (getCol d.new_prior_samples c))) }

/-- First character of a column name; `col_name.startswith("a")` is exactly
`firstChar col = some 'a'`. -/
def firstChar (s : String) : Option Char := s.data.head?

/-- `get_binsize` from `base.py`: spin bin size for names starting with `a`,
mass bin size for names starting with `m`, `ValueError` otherwise. -/
def get_binsize (d : ISData) (c : String) : Except String ℚ :=
  if firstChar c = some 'a' then .ok d.binsize_spin
  else if firstChar c = some 'm' then .ok d.binsize_mass
  else .error ("Unknown column name " ++ c)

/-- `get_nbins` from `base.py`: `int((bounds.high - bounds.low) / binsize)`. -/
def get_nbins (d : ISData) (c : String) : Except String ℤ := do
  let binsize ← get_binsize d c
  let bounds := boundsOf d c
  pure (pyInt ((bounds.high - bounds.low) / binsize))

/-- `get_edges` from `base.py`: `np.linspace(low, high, nbins + 1)`. -/
def get_edges (d : ISData) (c : String) : Except String (List ℚ) := do
  let nbins ← get_nbins d c
  let bounds := boundsOf d c
  pure (linspace bounds.low bounds.high (nbins.toNat + 1))

/-- `get_binwidth` from `base.py`: `edges[1] - edges[0]`; an `IndexError`
when the edge list has fewer than two entries (which happens iff the derived
bin count is 0). -/
def get_binwidth (d : ISData) (c : String) : Except String ℚ := do
  let edges ← get_edges d c
  match edges with
  | e0 :: e1 :: _ => pure (e1 - e0)
  | _ => .error "IndexError: edges has fewer than two entries"

/-- Bin count actually used by the pure histogram helpers once resolution has
succeeded (the wrappers below only reach them after `resolve_nbins` returned
`.ok`, which guarantees this value is the positive Python `int`). -/
def colNbins (d : ISData) (c : String) : ℕ :=
  match get_nbins d c with
  | .ok n => n.toNat
  | .error _ => 0

/-- Up-front resolution of every common column's bin count.  In Python the
`ValueError` from `get_binsize` and the `ValueError` NumPy raises for a
non-positive integer `bins` argument are raised inside the per-column loops;
since histogram construction is pure (no observable effect besides the
result or the exception), hoisting the checks in front of the pure core
yields the same `Except` outcome. -/
def resolve_nbins (d : ISData) : Except String (List ℕ) :=
  (common_columns d).mapM fun c => do
    let n ← get_nbins d c
    if n ≤ 0 then .error "ValueError: bins must be positive, when an integer"
    else pure n.toNat

/-! ## The independent (1-D) strategy, `assume_independence.py` -/

/-- Histogram of column `c` of frame `df` over the shared bounds
(`_get_hist_1d`). -/
def colHist (d : ISData) (df : DataFrame) (c : String) : List ℚ :=
  histDensity1d (getCol df c) (colNbins d c) (boundsOf d c).low (boundsOf d c).high

/-- Bin width of column `c` (`get_binwidth` after successful resolution). -/
def colBW (d : ISData) (c : String) : ℚ :=
  ((boundsOf d c).high - (boundsOf d c).low) / (colNbins d c : ℚ)

/-- `ratios = _safe_divide(new_prior_hist, prior_hist, ztol)` for column `c`. -/
def colRatio (d : ISData) (c : String) (ztol : ℚ) : List ℚ :=
  safe_divide (colHist d d.new_prior_samples c) (colHist d d.prior_samples c) ztol

/-- Per-column Bayes-factor contribution of `get_bayes_factor_1d`:
`np.sum(new_prior_hist * _safe_divide(posterior_hist, prior_hist, ztol)) *
binwidth`. -/
def colBF (d : ISData) (c : String) (ztol : ℚ) : ℚ :=
  (List.zipWith (· * ·) (colHist d d.new_prior_samples c)
    (safe_divide (colHist d d.posterior_samples c) (colHist d d.prior_samples c) ztol)).sum
    * colBW d c

/-- The correction-weight vector accumulated over the loop of
`get_bayes_factor_1d`: for each prior row, the product over the common
columns of `rv_histogram(ratios, edges).pdf` at that row's value. -/
def priorWeights (d : ISData) (ztol : ℚ) : List ℚ :=
  (List.range (nRows d.prior_samples)).map fun i =>
    ((common_columns d).map fun c =>
      rvPdf (colRatio d c ztol) (colNbins d c) (boundsOf d c).low (boundsOf d c).high
        ((getCol d.prior_samples c).getD i 0)).prod

/-- Pure core of `get_bayes_factor_1d`: the product of the per-column
contributions, short-circuited to `0.0` when the correction weights sum to
zero ("Since weights are all zero, return BF=0"). -/
def bf1dCore (d : ISData) (ztol : ℚ) : ℚ :=
  if (priorWeights d ztol).sum = 0 then 0
  else ((common_columns d).map fun c => colBF d c ztol).prod

/-- `get_bayes_factor_1d` from `assume_independence.py`. -/
def get_bayes_factor_1d (d : ISData) (ztol : ℚ) : Except String ℚ := do
  let _ ← resolve_nbins d
  pure (bf1dCore d ztol)

/-- `get_weights_1d` from `assume_independence.py` for one column: the ratio
histogram turned into an `rv_histogram` pdf and evaluated at every posterior
sample of that column. -/
def get_weights_1d (d : ISData) (c : String) (ztol : ℚ) : List ℚ :=
  (List.range (nRows d.posterior_samples)).map fun i =>
    rvPdf (colRatio d c ztol) (colNbins d c) (boundsOf d c).low (boundsOf d c).high
      ((getCol d.posterior_samples c).getD i 0)

/-- The posterior weight vector accumulated by `get_reweighted_samples_1d`:
`weights *= get_weights(col)` over the common columns. -/
def posteriorWeights1d (d : ISData) (ztol : ℚ) : List ℚ :=
  (List.range (nRows d.posterior_samples)).map fun i =>
    ((common_columns d).map fun c =>
      rvPdf (colRatio d c ztol) (colNbins d c) (boundsOf d c).low (boundsOf d c).high
        ((getCol d.posterior_samples c).getD i 0)).prod

/-- `DataFrame.sample(n=len(df), weights=w, replace=True, random_state=s)`.
pandas raises `ValueError` on negative weights and, after normalisation, on a
weight vector summing to zero; otherwise it draws rows with replacement —
the draw indices stand for the pseudo-random stream. -/
def pdSampleWeighted (rows : List (List ℚ)) (weights : List ℚ) (draws : List ℕ) :
    Except String (List (List ℚ)) :=
  if weights.any fun w => w < 0 then .error "weight vector may not include negative values"
  else if weights.sum = 0 then .error "Invalid weights: weights sum to zero"
  else .ok (draws.map fun i => rows.getD i [])

/-- `get_reweighted_samples_1d` from `assume_independence.py`: multiply the
per-column weights over the posterior samples and resample the posterior with
replacement using them. -/
def get_reweighted_samples_1d (d : ISData) (ztol : ℚ) (draws : List ℕ) :
    Except String (List (List ℚ)) := do
  let _ ← resolve_nbins d
  pdSampleWeighted (dfRows d.posterior_samples (dfCols d.posterior_samples))
    (posteriorWeights1d d ztol) draws

/-! ## The joint (N-D) strategy, `generic.py` -/

/-- The per-dimension bin layout used by `_get_hist_dd` over the common
columns. -/
def ddBins (d : ISData) : BinsDD :=
  (common_columns d).map fun c => (colNbins d c, (boundsOf d c).low, (boundsOf d c).high)

/-- Pure core of `_get_bayes_factor_dd`:
`np.sum(posterior_hist * _safe_divide(new_prior_hist, prior_hist, ztol)) *
bin_auc` over the joint histogram of the common columns. -/
def bfDDCore (d : ISData) (ztol : ℚ) : ℚ :=
  let bins := ddBins d
  let cols := common_columns d
  let posth := histDensityDD (dfRows d.posterior_samples cols) bins
  let priorh := histDensityDD (dfRows d.prior_samples cols) bins
  let newh := histDensityDD (dfRows d.new_prior_samples cols) bins
  (List.zipWith (· * ·) posth (safe_divide newh priorh ztol)).sum * binVolume bins

/-- `get_bayes_factor_dd` (without bootstrapping) from `generic.py`. -/
def get_bayes_factor_dd (d : ISData) (ztol : ℚ) : Except String ℚ := do
  let _ ← resolve_nbins d
  pure (bfDDCore d ztol)

/-- `np.searchsorted(edges, x, side='right')`: for a sorted edge list this is
the number of edges `≤ x`. -/
def searchsortedRight (edges : List ℚ) (x : ℚ) : ℕ :=
  edges.countP fun e => e ≤ x

/-- NumPy integer indexing into one axis of length `n`: negative indices in
`[-n, 0)` wrap around, indices outside `[-n, n)` raise `IndexError`. -/
def npIndex (n : ℕ) (i : ℤ) : Except String ℕ :=
  if 0 ≤ i ∧ i < (n : ℤ) then .ok i.toNat
  else if -(n : ℤ) ≤ i ∧ i < 0 then .ok (i + n).toNat
  else .error "IndexError: index out of bounds"

/-- The flattened matrix index computed by `_get_pdf` in `generic.py`:
per dimension `np.searchsorted(edges, x, side='right') - 1`, assembled
row-major with NumPy indexing semantics per axis. -/
def ddIdx : BinsDD → List ℚ → Except String ℕ
  | [], [] => .ok 0
  | b :: bs, x :: xs => do
    let i ← npIndex b.1 ((searchsortedRight (linspace b.2.1 b.2.2 (b.1 + 1)) x : ℤ) - 1)
    let r ← ddIdx bs xs
    .ok (i * binsProd bs + r)
  | _, _ => .error "shape mismatch"

/-- `_get_posterior_sample_weights_dd` from `generic.py`: the joint ratio
matrix `_safe_divide(new_prior_hist, prior_hist, ztol)` looked up at each
posterior row's cell. -/
def ddPosteriorWeights (d : ISData) (ztol : ℚ) : Except String (List ℚ) :=
  let bins := ddBins d
  let cols := common_columns d
  let wMatrix := safe_divide (histDensityDD (dfRows d.new_prior_samples cols) bins)
    (histDensityDD (dfRows d.prior_samples cols) bins) ztol
  (dfRows d.posterior_samples cols).mapM fun r => do
    let i ← ddIdx bins r
    pure (wMatrix.getD i 0)

/-- `get_reweighted_samples_dd` from `generic.py`. -/
def get_reweighted_samples_dd (d : ISData) (ztol : ℚ) (draws : List ℕ) :
    Except String (List (List ℚ)) := do
  let _ ← resolve_nbins d
  let weights ← ddPosteriorWeights d ztol
  pdSampleWeighted (dfRows d.posterior_samples (dfCols d.posterior_samples)) weights draws

/-! ## Bounds resolution of `resampler.py` (`ISData._compute_bounds`) -/

/-- `min(x, m)` where `m` is the column minimum of a dataset that may lack
the column; a missing column contributes `np.inf`, i.e. leaves `x`
unchanged. -/
def minOpt (x : ℚ) : Option ℚ → ℚ
  | none => x
  | some y => min x y

/-- `max(x, m)` with a missing column contributing `-np.inf`. -/
def maxOpt (x : ℚ) : Option ℚ → ℚ
  | none => x
  | some y => max x y

/-- `ISData._compute_bounds` from `resampler.py`: iterate over the posterior's
columns; a dataset lacking the column contributes `(+inf, -inf)`; no error is
ever raised, and a parameter absent from the posterior is simply absent from
the result. -/
def compute_bounds (posterior prior new_prior : DataFrame) : List (String × Domain) :=
  (dfCols posterior).map fun c =>
    (c, { low := minOpt (minOpt (listMin (getCol posterior c)) ((getCol? prior c).map listMin))
            ((getCol? new_prior c).map listMin)
          high := maxOpt (maxOpt (listMax (getCol posterior c)) ((getCol? prior c).map listMax))
            ((getCol? new_prior c).map listMax) })

/-! ## Bayes-factor sweep over escape velocity (`bayes_factor.py`) -/

/-- Linear interpolation into a sorted value list at fractional position
`pos ∈ [0, n-1]`, as done by `np.percentile`/`np.median`/`Series.quantile`
with the default `linear` interpolation:
`s[i] + (pos - i) * (s[i+1] - s[i])` with `i = ⌊pos⌋`. -/
def interpAt (s : List ℚ) (pos : ℚ) : ℚ :=
  let i := (⌊pos⌋).toNat
  if i + 1 < s.length then s.getD i 0 + (pos - i) * (s.getD (i + 1) 0 - s.getD i 0)
  else s.getD (s.length - 1) 0

/-- The sorted copy of the data (`np.sort`). -/
def sortedOf (xs : List ℚ) : List ℚ := List.insertionSort (· ≤ ·) xs

/-- `Series.quantile(q)` (`q ∈ [0, 1]`, linear interpolation). -/
def quantile (xs : List ℚ) (q : ℚ) : ℚ :=
  interpAt (sortedOf xs) (q * ((xs.length : ℚ) - 1))

/-- `np.percentile(xs, q)` (`q ∈ [0, 100]`). -/
def percentile (xs : List ℚ) (q : ℚ) : ℚ := quantile xs (q / 100)

/-- `np.median`: the mean of the middle value(s), which coincides with the
50th percentile under linear interpolation. -/
def npMedian (xs : List ℚ) : ℚ := percentile xs 50

/-- `np.linspace` over the reals (the model of the float computation that
feeds transcendental values to `np.logspace`). -/
noncomputable def linspaceR (low high : ℝ) (num : ℕ) : List ℝ :=
  if num = 0 then []
  else if num = 1 then [low]
  else (List.range num).map fun i : ℕ => low + (high - low) * (i : ℝ) / ((num : ℝ) - 1)

/-- `_extract_kick_thresholds` from `bayes_factor.py`, single-`Series`
branch: `k_lb = kicks.quantile(1/len(kicks))`, `k_ub = kicks.max()`, then
`np.logspace(np.log10(k_lb), np.log10(k_ub), n_bins)` (which is by
definition `10 ** np.linspace(log10 k_lb, log10 k_ub, n_bins)`) in log
scale, else `np.linspace(k_lb, k_ub, n_bins)`.  The transcendental log-scale
spacing exists only over `ℝ`, hence the real-valued result. -/
noncomputable def extract_kick_thresholds (kicks : List ℚ) (nBins : ℕ) (logScale : Bool) :
    List ℝ :=
  let kLb := quantile kicks (1 / (kicks.length : ℚ))
  let kUb := listMax kicks
  if logScale then
    (linspaceR (Real.logb 10 (kLb : ℝ)) (Real.logb 10 (kUb : ℝ)) nBins).map
      fun t => (10 : ℝ) ^ t
  else (linspace kLb kUb nBins).map fun q : ℚ => (q : ℝ)

/-- The dictionary returned by `get_bayes_factor_over_escape_velocity`. -/
structure SweepResult where
  escape_velocity : List ℝ
  bayes_factor_samples : List (List ℚ)
  bayes_factor_median : List ℚ
  bayes_factor_low : List ℚ
  bayes_factor_high : List ℚ

/-- Modelled from the spec: `ISData.sample_bayes_factor(n, is_parallel)` is
called by `get_bayes_factor_over_escape_velocity` but its definition (on the
`Interface` base class) is not among the provided sources.  Per the spec
(§4.6) it runs `get_bayes_factor` `n_bootstrap` times under independent
random resampling of the input datasets and returns the list of results; the
`trials` oracle below stands for those pseudo-random per-threshold bootstrap
outcomes, `trials i` being the list returned at the `i`-th threshold. -/
noncomputable def get_bayes_factor_over_escape_velocity (kicks : List ℚ) (nBins : ℕ)
    (logScale : Bool) (refBF : ℚ) (trials : ℕ → List ℚ) : SweepResult :=
  let vEscs := extract_kick_thresholds kicks nBins logScale
  let samples := (List.range vEscs.length).map fun i => (trials i).map fun b => b / refBF
  { escape_velocity := vEscs
    bayes_factor_samples := samples
    bayes_factor_median := samples.map npMedian
    bayes_factor_low := samples.map fun s => percentile s 5
    bayes_factor_high := samples.map fun s => percentile s 95 }

/-! ## Concrete evaluation fixtures

Small datasets used by the closed counterexample/witness theorems below.
`a_1`/`a_2` are spin-class columns (bin size 1/20 over their observed range). -/

/-- Fixture: prior spans `[0, 1]`, candidate prior concentrated in the last
bin, posterior in a zero-ratio bin; the correction/importance weights all
vanish. -/
def exZeroWeights : ISData :=
  { posterior_samples := [("a_1", [24/25, 1/2])]
    prior_samples := [("a_1", [0, 1])]
    new_prior_samples := [("a_1", [39/40, 39/40])] }

/-- Fixture: the same frame `[0, 1]` used as prior, posterior and candidate
prior. -/
def exSelf : ISData :=
  { posterior_samples := [("a_1", [0, 1])]
    prior_samples := [("a_1", [0, 1])]
    new_prior_samples := [("a_1", [0, 1])] }

/-- Fixture: one frame used in all three roles, with two spin columns such
that every row attains the column maximum in one of the two columns (a
coarse bin size keeps the joint histogram small: 2 bins per column). -/
def exCross : ISData :=
  { posterior_samples := [("a_1", [0, 1]), ("a_2", [1, 0])]
    prior_samples := [("a_1", [0, 1]), ("a_2", [1, 0])]
    new_prior_samples := [("a_1", [0, 1]), ("a_2", [1, 0])]
    binsize_spin := 1/2 }

/-- Fixture: posterior samples sitting in a bin where the candidate-to-base
prior ratio is zero, so every posterior importance weight is zero. -/
def exDegenerate : ISData :=
  { posterior_samples := [("a_1", [1/4, 1/4])]
    prior_samples := [("a_1", [0, 1])]
    new_prior_samples := [("a_1", [39/40, 39/40])] }

/-- Fixture: a spin column whose observed range `1/50` is smaller than the
spin bin size `1/20`. -/
def exTiny : ISData :=
  { posterior_samples := [("a_1", [0, 1/50])]
    prior_samples := [("a_1", [0, 1/50])]
    new_prior_samples := [("a_1", [0, 1/50])] }

/-- Fixture: a shared column whose name starts neither with `a` nor `m`. -/
def exBadCol : ISData :=
  { posterior_samples := [("q_1", [0, 1])]
    prior_samples := [("q_1", [0, 1])]
    new_prior_samples := [("q_1", [0, 1])] }

/-- The `prior = posterior = candidate_prior = df` configuration of §8's
self-consistency property. -/
def selfData (df : DataFrame) (bs bm : ℚ) : ISData :=
  { posterior_samples := df, prior_samples := df, new_prior_samples := df
    binsize_spin := bs, binsize_mass := bm }

/-! ## General helper lemmas -/

instance {e a : Type} [DecidableEq e] [DecidableEq a] : DecidableEq (Except e a) := fun x y =>
  match x, y with
  | .ok v, .ok w => decidable_of_iff (v = w) (by simp)
  | .error v, .error w => decidable_of_iff (v = w) (by simp)
  | .ok _, .error _ => isFalse (by simp)
  | .error _, .ok _ => isFalse (by simp)

theorem except_bind_ok {α β : Type} (a : α) (f : α → Except String β) :
    (Except.ok a >>= f : Except String β) = f a := rfl

theorem except_bind_error {α β : Type} (e : String) (f : α → Except String β) :
    (Except.error e >>= f : Except String β) = Except.error e := rfl

theorem exceptMapM_ok_mem {α β : Type} {f : α → Except String β} :
    ∀ {l : List α} {rs : List β}, l.mapM f = .ok rs → ∀ a ∈ l, ∃ b, f a = .ok b := by
  intro l
  induction l with
  | nil => intro rs _ a ha; exact absurd ha (List.not_mem_nil a)
  | cons x xs ih =>
    intro rs h a ha
    rw [List.mapM_cons] at h
    cases hx : f x with
    | error e => rw [hx] at h; exact absurd h (by simp [except_bind_error])
    | ok b =>
      rw [hx, except_bind_ok] at h
      cases hxs : xs.mapM f with
      | error e => rw [hxs] at h; exact absurd h (by simp [except_bind_error])
      | ok bs =>
        rcases List.mem_cons.mp ha with rfl | ha'
        · exact ⟨b, hx⟩
        · exact ih hxs a ha'

theorem exceptMapM_error_mem {α β : Type} {f : α → Except String β} {a : α} :
    ∀ {l : List α}, a ∈ l → (∀ b, f a ≠ .ok b) → ∃ e, l.mapM f = .error e := by
  intro l
  induction l with
  | nil => intro ha; exact absurd ha (List.not_mem_nil a)
  | cons x xs ih =>
    intro ha hfa
    rw [List.mapM_cons]
    cases hx : f x with
    | error e => exact ⟨e, by rw [except_bind_error]⟩
    | ok b =>
      rw [except_bind_ok]
      rcases List.mem_cons.mp ha with rfl | ha'
      · exact absurd hx (hfa b)
      · obtain ⟨e, he⟩ := ih ha' hfa
        exact ⟨e, by rw [he, except_bind_error]⟩

theorem list_range_map_sum {M : Type} [AddCommMonoid M] (n : ℕ) (f : ℕ → M) :
    ((List.range n).map f).sum = ∑ i ∈ Finset.range n, f i := by
  induction n with
  | zero => simp
  | succ k ih =>
    rw [List.range_succ, List.map_append, List.sum_append, Finset.sum_range_succ, ih]
    simp

/-! ## Claim theorems: C2 (SafeRatio) -/

/-- Claim C2: for equal-length arrays of non-negative values, `_safe_divide`
returns the elementwise quotient (the value of `exp(log a - log b)` for
non-negative numerators) exactly where the denominator exceeds the floor
`ztol`, and exactly 0 where it does not; the result has the input length,
contains only non-negative (finite) values, and the operation is total. -/
theorem safe_divide_spec (a b : List ℚ) (ztol : ℚ) (hlen : a.length = b.length)
    (_hz : 0 ≤ ztol) (ha : ∀ x ∈ a, 0 ≤ x) (hb : ∀ x ∈ b, 0 ≤ x) :
    (safe_divide a b ztol).length = a.length ∧
    (∀ v ∈ safe_divide a b ztol, 0 ≤ v) ∧
    ∀ i, i < a.length →
      (ztol < b.getD i 0 → (safe_divide a b ztol).getD i 0 = a.getD i 0 / b.getD i 0) ∧
      (b.getD i 0 ≤ ztol → (safe_divide a b ztol).getD i 0 = 0) := by
  induction a generalizing b with
  | nil =>
    refine ⟨by simp [safe_divide], by simp [safe_divide], ?_⟩
    intro i hi; exact absurd hi (by simp)
  | cons x xs ih =>
    cases b with
    | nil => exact absurd hlen (by simp)
    | cons y ys =>
      have hlen' : xs.length = ys.length := by simpa using hlen
      have hxs : ∀ v ∈ xs, 0 ≤ v := fun v hv => ha v (List.mem_cons_of_mem x hv)
      have hys : ∀ v ∈ ys, 0 ≤ v := fun v hv => hb v (List.mem_cons_of_mem y hv)
      obtain ⟨ihlen, ihnn, ihidx⟩ := ih ys hlen' hxs hys
      have hx0 : 0 ≤ x := ha x (List.mem_cons_self x xs)
      have hy0 : 0 ≤ y := hb y (List.mem_cons_self y ys)
      refine ⟨by simpa [safe_divide] using ihlen, ?_, ?_⟩
      · intro v hv
        rw [safe_divide, List.zipWith_cons_cons] at hv
        rcases List.mem_cons.mp hv with rfl | hv'
        · split
          · exact div_nonneg hx0 hy0
          · exact le_refl 0
        · exact ihnn v hv'
      · intro i hi
        cases i with
        | zero =>
          constructor
          · intro hgt
            rw [List.getD_cons_zero] at hgt
            simp only [safe_divide, List.zipWith_cons_cons, List.getD_cons_zero, if_pos hgt]
          · intro hle
            rw [List.getD_cons_zero] at hle
            simp only [safe_divide, List.zipWith_cons_cons, List.getD_cons_zero,
              if_neg (not_lt.mpr hle)]
        | succ j =>
          have hj : j < xs.length := by simpa using hi
          have := ihidx j hj
          simpa [safe_divide, List.zipWith_cons_cons] using this

/-- Closed witness for `safe_divide_spec` at a concrete input. -/
theorem safe_divide_spec_witness :
    (([3, 0, 5] : List ℚ).length = ([2, 1, 0] : List ℚ).length) ∧
    ((0 : ℚ) ≤ 1/100000000) ∧
    ((safe_divide [3, 0, 5] [2, 1, 0] (1/100000000)).length = 3 ∧
      (∀ v ∈ safe_divide [3, 0, 5] [2, 1, 0] (1/100000000), 0 ≤ v) ∧
      ∀ i, i < ([3, 0, 5] : List ℚ).length →
        (1/100000000 < ([2, 1, 0] : List ℚ).getD i 0 →
          (safe_divide [3, 0, 5] [2, 1, 0] (1/100000000)).getD i 0
            = ([3, 0, 5] : List ℚ).getD i 0 / ([2, 1, 0] : List ℚ).getD i 0) ∧
        (([2, 1, 0] : List ℚ).getD i 0 ≤ 1/100000000 →
          (safe_divide [3, 0, 5] [2, 1, 0] (1/100000000)).getD i 0 = 0)) :=
  ⟨by decide, by with_unfolding_all decide,
    safe_divide_spec [3, 0, 5] [2, 1, 0] (1/100000000) (by decide)
      (by with_unfolding_all decide)
      (by with_unfolding_all decide)
      (by with_unfolding_all decide)⟩

/-! ## Claim theorems: C1 (histogram integral check warns, does not fail) -/

/-- Claim C1 counterexample: a sample sequence whose density histogram
integrates to 0 (all samples out of range), far beyond the 1e-6 tolerance.
Both the 1-D and the N-D estimator log the warning and still return the
histogram: the functions are total, no error value exists, computation
continues with the returned histogram.  This contradicts the claim that such
a violation is a fatal error propagating to the caller. -/
theorem histogram_deviation_not_fatal :
    npIsCloseAtol6 ((histDensity1d [2] 1 0 1).sum * ((1 - 0) / (1 : ℕ))) 1 = false ∧
    get_histogram_1d [2] 1 0 1 = { hist := [0], warned := true } ∧
    npIsCloseAtol6 ((histDensityDD [[2]] [(1, 0, 1)]).sum * binVolume [(1, 0, 1)]) 1 = false ∧
    get_histogram_dd [[2]] [(1, 0, 1)] = { hist := [0], warned := true } := by
  with_unfolding_all decide

/-- Claim C1 (amended): when the density histogram's integral deviates from 1
beyond the `np.isclose` tolerance, the estimator (1-D and N-D alike) logs the
`Invalid probability distribution` warning and still returns the histogram;
the deviation is never escalated to an error. -/
theorem histogram_deviation_only_warns :
    (∀ (samples : List ℚ) (nbins : ℕ) (low high : ℚ),
      npIsCloseAtol6 ((histDensity1d samples nbins low high).sum * ((high - low) / nbins)) 1
          = false →
      get_histogram_1d samples nbins low high
        = { hist := histDensity1d samples nbins low high, warned := true }) ∧
    (∀ (rows : List (List ℚ)) (bins : BinsDD),
      npIsCloseAtol6 ((histDensityDD rows bins).sum * binVolume bins) 1 = false →
      get_histogram_dd rows bins
        = { hist := histDensityDD rows bins, warned := true }) := by
  constructor
  · intro samples nbins low high h
    simp [get_histogram_1d, h]
  · intro rows bins h
    simp [get_histogram_dd, h]

/-- Closed witness for `histogram_deviation_only_warns` at concrete inputs. -/
theorem histogram_deviation_only_warns_witness :
    get_histogram_1d [2] 1 0 1 = { hist := histDensity1d [2] 1 0 1, warned := true } ∧
    get_histogram_dd [[2]] [(1, 0, 1)]
      = { hist := histDensityDD [[2]] [(1, 0, 1)], warned := true } :=
  ⟨histogram_deviation_only_warns.1 [2] 1 0 1 (by with_unfolding_all decide),
    histogram_deviation_only_warns.2 [[2]] [(1, 0, 1)] (by with_unfolding_all decide)⟩

/-! ## Claim theorems: C9 (zero correction weights give Bayes factor 0) -/

theorem except_pure {β : Type} (a : β) : (pure a : Except String β) = .ok a := rfl

/-- Claim C9: in the independent strategy, when the correlated-parameter
correction weights (product over shared parameters of the ratio weight
function at every prior sample) sum to zero, `get_bayes_factor_1d` returns
exactly `0.0`: it does not raise and does not return the accumulated
per-parameter product. -/
theorem bayes_factor_1d_zero_weights (d : ISData) (ztol : ℚ) (ns : List ℕ)
    (hres : resolve_nbins d = .ok ns)
    (hw : (priorWeights d ztol).sum = 0) :
    get_bayes_factor_1d d ztol = .ok 0 := by
  rw [get_bayes_factor_1d, hres, except_bind_ok, except_pure, bf1dCore, if_pos hw]

/-- Closed witness for `bayes_factor_1d_zero_weights`: the prior samples land
at 0 (a zero-ratio bin) and at 1 (the right edge, which the interpolated
weight function maps to 0), so the correction weights are all zero. -/
theorem bayes_factor_1d_zero_weights_witness :
    get_bayes_factor_1d exZeroWeights (1/100000000) = .ok 0 :=
  bayes_factor_1d_zero_weights exZeroWeights (1/100000000) [20]
    (by with_unfolding_all decide) (by with_unfolding_all decide)

/-! ## Claim theorems: C5 (strategy agreement), counterexample part -/

/-- Claim C5 counterexample: with exactly one shared parameter the two
strategies do NOT always return the same value.  On `exZeroWeights` the
independent strategy's correction weights all vanish, so it returns `0.0`
through its guard, while the joint strategy computes the actual ratio
integral `1`. -/
theorem strategies_disagree_counterexample :
    get_bayes_factor_1d exZeroWeights (1/100000000) = .ok 0 ∧
    get_bayes_factor_dd exZeroWeights (1/100000000) = .ok 1 ∧
    get_bayes_factor_1d exZeroWeights (1/100000000)
      ≠ get_bayes_factor_dd exZeroWeights (1/100000000) := by
  refine ⟨?_, ?_, ?_⟩ <;> with_unfolding_all decide

/-! ## Claim theorems: C4 (self-consistency), counterexample part -/

/-- Claim C4 counterexample: a dataset `D` whose histograms all pass the
integral invariant (every 1-D histogram integrates to exactly 1), yet
`get_bayes_factor(prior=D, posterior=D, candidate_prior=D)` is `0.0` — not
≈ 1 — in the independent strategy, because every row of `exCross` has some
coordinate exactly at its column maximum and the correction weights vanish.
The joint strategy returns 1 on the same input. -/
theorem self_bayes_factor_counterexample :
    get_histogram_1d (getCol exCross.prior_samples "a_1") 2 0 1
      = { hist := histDensity1d (getCol exCross.prior_samples "a_1") 2 0 1, warned := false } ∧
    get_histogram_1d (getCol exCross.prior_samples "a_2") 2 0 1
      = { hist := histDensity1d (getCol exCross.prior_samples "a_2") 2 0 1, warned := false } ∧
    get_bayes_factor_1d exCross (1/100000000) = .ok 0 ∧
    get_bayes_factor_dd exCross (1/100000000) = .ok 1 := by
  refine ⟨?_, ?_, ?_, ?_⟩ <;> with_unfolding_all decide

/-! ## Claim theorems: C10 (unknown parameter class fails everything) -/

theorem get_binsize_error {d : ISData} {c : String}
    (ha : firstChar c ≠ some 'a') (hm : firstChar c ≠ some 'm') :
    get_binsize d c = .error ("Unknown column name " ++ c) := by
  rw [get_binsize, if_neg ha, if_neg hm]

theorem resolve_nbins_error_of_bad_col {d : ISData} {c : String} (hc : c ∈ common_columns d)
    (ha : firstChar c ≠ some 'a') (hm : firstChar c ≠ some 'm') :
    ∃ e, resolve_nbins d = .error e := by
  apply exceptMapM_error_mem hc
  intro b hb
  rw [get_nbins, get_binsize_error ha hm, except_bind_error, except_bind_error] at hb
  exact Except.noConfusion hb

/-- Claim C10: a shared parameter whose name starts with neither `a` nor `m`
makes `get_binsize` raise `ValueError`, and consequently every Bayes-factor
and reweighting operation (both strategies) fails, regardless of the data. -/
theorem unknown_column_class_fails (d : ISData) (c : String) (ztol : ℚ) (draws : List ℕ)
    (ha : firstChar c ≠ some 'a') (hm : firstChar c ≠ some 'm') :
    get_binsize d c = .error ("Unknown column name " ++ c) ∧
    (c ∈ common_columns d →
      (∃ e, get_bayes_factor_1d d ztol = .error e) ∧
      (∃ e, get_bayes_factor_dd d ztol = .error e) ∧
      (∃ e, get_reweighted_samples_1d d ztol draws = .error e) ∧
      (∃ e, get_reweighted_samples_dd d ztol draws = .error e)) := by
  refine ⟨get_binsize_error ha hm, ?_⟩
  intro hc
  obtain ⟨e, he⟩ := resolve_nbins_error_of_bad_col hc ha hm
  refine ⟨⟨e, ?_⟩, ⟨e, ?_⟩, ⟨e, ?_⟩, ⟨e, ?_⟩⟩
  · rw [get_bayes_factor_1d, he, except_bind_error]
  · rw [get_bayes_factor_dd, he, except_bind_error]
  · rw [get_reweighted_samples_1d, he, except_bind_error]
  · rw [get_reweighted_samples_dd, he, except_bind_error]

/-- Closed witness for `unknown_column_class_fails` on the shared column
`q_1`. -/
theorem unknown_column_class_fails_witness :
    get_binsize exBadCol "q_1" = .error ("Unknown column name " ++ "q_1") ∧
    ((∃ e, get_bayes_factor_1d exBadCol 0 = .error e) ∧
      (∃ e, get_bayes_factor_dd exBadCol 0 = .error e) ∧
      (∃ e, get_reweighted_samples_1d exBadCol 0 [] = .error e) ∧
      (∃ e, get_reweighted_samples_dd exBadCol 0 [] = .error e)) :=
  ⟨(unknown_column_class_fails exBadCol "q_1" 0 [] (by decide) (by decide)).1,
    (unknown_column_class_fails exBadCol "q_1" 0 [] (by decide) (by decide)).2
      (by with_unfolding_all decide)⟩

/-! ## Claim theorems: C3 (degenerate weights fail explicitly) -/

theorem pdSampleWeighted_all_zero (rows : List (List ℚ)) (weights : List ℚ) (draws : List ℕ)
    (h : ∀ w ∈ weights, w = 0) :
    pdSampleWeighted rows weights draws = .error "Invalid weights: weights sum to zero" := by
  have hneg : weights.any (fun w => w < 0) = false := by
    rw [List.any_eq_false]
    intro w hw
    simp [h w hw]
  have hsum : weights.sum = 0 := List.sum_eq_zero h
  simp [pdSampleWeighted, hneg, hsum]

/-- Claim C3: whenever the per-posterior-sample importance weights (product
over the shared parameters of the ratio weight function at each posterior
sample) are all zero, `get_reweighted_samples` — in both strategies — fails
with the degenerate-weights `ValueError` from the weighted resampling step;
it never silently returns an empty, unreweighted or zero-weighted sample
set. -/
theorem reweighted_samples_degenerate (d : ISData) (ztol : ℚ) (draws : List ℕ) (ns : List ℕ)
    (hres : resolve_nbins d = .ok ns)
    (h1 : ∀ w ∈ posteriorWeights1d d ztol, w = 0) :
    get_reweighted_samples_1d d ztol draws = .error "Invalid weights: weights sum to zero" ∧
    ∀ ws, ddPosteriorWeights d ztol = .ok ws → (∀ w ∈ ws, w = 0) →
      get_reweighted_samples_dd d ztol draws
        = .error "Invalid weights: weights sum to zero" := by
  constructor
  · rw [get_reweighted_samples_1d, hres, except_bind_ok]
    exact pdSampleWeighted_all_zero _ _ _ h1
  · intro ws hws hz
    rw [get_reweighted_samples_dd, hres, except_bind_ok, hws, except_bind_ok]
    exact pdSampleWeighted_all_zero _ _ _ hz

/-- Closed witness for `reweighted_samples_degenerate` on `exDegenerate`:
both posterior samples sit in a zero-ratio bin, so all importance weights
are 0 in both strategies and both resampling entry points fail. -/
theorem reweighted_samples_degenerate_witness :
    get_reweighted_samples_1d exDegenerate (1/100000000) [0]
      = .error "Invalid weights: weights sum to zero" ∧
    get_reweighted_samples_dd exDegenerate (1/100000000) [0]
      = .error "Invalid weights: weights sum to zero" :=
  ⟨(reweighted_samples_degenerate exDegenerate (1/100000000) [0] [20]
      (by with_unfolding_all decide) (by with_unfolding_all decide)).1,
    (reweighted_samples_degenerate exDegenerate (1/100000000) [0] [20]
      (by with_unfolding_all decide) (by with_unfolding_all decide)).2
      [0, 0] (by with_unfolding_all decide) (by with_unfolding_all decide)⟩

/-! ## Minimum/maximum helper lemmas -/

theorem foldl_min_le_init (xs : List ℚ) (a : ℚ) : xs.foldl min a ≤ a := by
  induction xs generalizing a with
  | nil => exact le_refl a
  | cons y ys ih => exact le_trans (ih (min a y)) (min_le_left a y)

theorem foldl_min_le_mem {xs : List ℚ} {x : ℚ} (hx : x ∈ xs) (a : ℚ) :
    xs.foldl min a ≤ x := by
  induction xs generalizing a with
  | nil => exact absurd hx (List.not_mem_nil x)
  | cons y ys ih =>
    rcases List.mem_cons.mp hx with rfl | hx'
    · exact le_trans (foldl_min_le_init ys (min a x)) (min_le_right a x)
    · exact ih hx' (min a y)

theorem listMin_le_mem {xs : List ℚ} {x : ℚ} (hx : x ∈ xs) : listMin xs ≤ x := by
  cases xs with
  | nil => exact absurd hx (List.not_mem_nil x)
  | cons y ys =>
    rw [listMin]
    rcases List.mem_cons.mp hx with rfl | hx'
    · exact foldl_min_le_init ys x
    · exact foldl_min_le_mem hx' y

theorem foldl_min_cases (xs : List ℚ) (a : ℚ) : xs.foldl min a = a ∨ xs.foldl min a ∈ xs := by
  induction xs generalizing a with
  | nil => exact Or.inl rfl
  | cons y ys ih =>
    rcases ih (min a y) with h | h
    · rcases min_choice a y with hm | hm
      · exact Or.inl (by rw [List.foldl_cons, h, hm])
      · exact Or.inr (by rw [List.foldl_cons, h, hm]; exact List.mem_cons_self y ys)
    · exact Or.inr (List.mem_cons_of_mem y h)

theorem listMin_mem {xs : List ℚ} (h : xs ≠ []) : listMin xs ∈ xs := by
  cases xs with
  | nil => exact absurd rfl h
  | cons y ys =>
    rw [listMin]
    rcases foldl_min_cases ys y with h | h
    · rw [h]; exact List.mem_cons_self y ys
    · exact List.mem_cons_of_mem y h

theorem init_le_foldl_max (xs : List ℚ) (a : ℚ) : a ≤ xs.foldl max a := by
  induction xs generalizing a with
  | nil => exact le_refl a
  | cons y ys ih => exact le_trans (le_max_left a y) (ih (max a y))

theorem mem_le_foldl_max {xs : List ℚ} {x : ℚ} (hx : x ∈ xs) (a : ℚ) :
    x ≤ xs.foldl max a := by
  induction xs generalizing a with
  | nil => exact absurd hx (List.not_mem_nil x)
  | cons y ys ih =>
    rcases List.mem_cons.mp hx with rfl | hx'
    · exact le_trans (le_max_right a x) (init_le_foldl_max ys (max a x))
    · exact ih hx' (max a y)

theorem mem_le_listMax {xs : List ℚ} {x : ℚ} (hx : x ∈ xs) : x ≤ listMax xs := by
  cases xs with
  | nil => exact absurd hx (List.not_mem_nil x)
  | cons y ys =>
    rw [listMax]
    rcases List.mem_cons.mp hx with rfl | hx'
    · exact init_le_foldl_max ys x
    · exact mem_le_foldl_max hx' y

theorem foldl_max_cases (xs : List ℚ) (a : ℚ) : xs.foldl max a = a ∨ xs.foldl max a ∈ xs := by
  induction xs generalizing a with
  | nil => exact Or.inl rfl
  | cons y ys ih =>
    rcases ih (max a y) with h | h
    · rcases max_choice a y with hm | hm
      · exact Or.inl (by rw [List.foldl_cons, h, hm])
      · exact Or.inr (by rw [List.foldl_cons, h, hm]; exact List.mem_cons_self y ys)
    · exact Or.inr (List.mem_cons_of_mem y h)

theorem listMax_mem {xs : List ℚ} (h : xs ≠ []) : listMax xs ∈ xs := by
  cases xs with
  | nil => exact absurd rfl h
  | cons y ys =>
    rw [listMax]
    rcases foldl_max_cases ys y with h | h
    · rw [h]; exact List.mem_cons_self y ys
    · exact List.mem_cons_of_mem y h

theorem listMin_le_listMax {xs : List ℚ} (h : xs ≠ []) : listMin xs ≤ listMax xs :=
  le_trans (listMin_le_mem (listMax_mem h)) (le_refl _)

/-! ## Claim theorems: C6 (bounds resolution) -/

theorem lookup_map_key {β : Type} (l : List String) (f : String → β) (c : String)
    (hc : c ∈ l) : (l.map fun x => (x, f x)).lookup c = some (f c) := by
  induction l with
  | nil => exact absurd hc (List.not_mem_nil c)
  | cons x xs ih =>
    by_cases h : c = x
    · subst h
      simp [List.lookup]
    · have hbeq : (c == x) = false := beq_eq_false_iff_ne.mpr h
      have hc' : c ∈ xs := by
        rcases List.mem_cons.mp hc with rfl | hc'
        · exact absurd rfl h
        · exact hc'
      simpa [List.lookup, hbeq] using ih hc'

/-- Claim C6 counterexample: a parameter (`v_k`) contained in NO dataset.
`_compute_bounds` (from `resampler.py`) completes normally — it is a total
function with no error path — and simply returns a bounds table without the
parameter; no `MissingParameterError` (or any failure) occurs. -/
theorem compute_bounds_no_missing_parameter_error :
    compute_bounds [("m_1", [1, 2])] [("m_1", [0, 3])] [("m_1", [1, 1])]
      = [("m_1", { low := 0, high := 3 })] ∧
    (compute_bounds [("m_1", [1, 2])] [("m_1", [0, 3])] [("m_1", [1, 1])]).lookup "v_k"
      = none := by
  constructor <;> with_unfolding_all decide

/-- Claim C6 (amended): for every parameter in the posterior frame (with a
non-empty column), the resolved Domain is the min of the per-dataset minima
and the max of the per-dataset maxima over exactly the datasets containing
the parameter (absent datasets contribute `(+inf, -inf)` and cannot affect
or be the bound), and `low ≤ high`; a parameter contained in no dataset is
absent from the resolved table rather than raising `MissingParameterError`. -/
theorem compute_bounds_spec (post pri new : DataFrame) (c : String)
    (hc : c ∈ dfCols post) (hne : getCol post c ≠ []) :
    ∃ dom : Domain, (compute_bounds post pri new).lookup c = some dom ∧
      dom.low ≤ listMin (getCol post c) ∧ listMax (getCol post c) ≤ dom.high ∧
      (∀ xs, getCol? pri c = some xs → dom.low ≤ listMin xs ∧ listMax xs ≤ dom.high) ∧
      (∀ xs, getCol? new c = some xs → dom.low ≤ listMin xs ∧ listMax xs ≤ dom.high) ∧
      (dom.low = listMin (getCol post c)
        ∨ (∃ xs, getCol? pri c = some xs ∧ dom.low = listMin xs)
        ∨ (∃ xs, getCol? new c = some xs ∧ dom.low = listMin xs)) ∧
      (dom.high = listMax (getCol post c)
        ∨ (∃ xs, getCol? pri c = some xs ∧ dom.high = listMax xs)
        ∨ (∃ xs, getCol? new c = some xs ∧ dom.high = listMax xs)) ∧
      dom.low ≤ dom.high := by
  refine ⟨_, lookup_map_key (dfCols post) _ c hc, ?_⟩
  cases hpri : getCol? pri c with
  | none =>
    cases hnew : getCol? new c with
    | none =>
      simp only [hpri, hnew, minOpt, maxOpt, Option.map_none']
      refine ⟨le_refl _, le_refl _, ?_, ?_, ?_, ?_, ?_⟩
      · intro xs hxs; exact absurd hxs (by simp)
      · intro xs hxs; exact absurd hxs (by simp)
      · exact Or.inl (by simp)
      · exact Or.inl (by simp)
      · exact listMin_le_listMax hne
    | some ys =>
      simp only [hpri, hnew, minOpt, maxOpt, Option.map_none', Option.map_some']
      refine ⟨min_le_left _ _, le_max_left _ _, ?_, ?_, ?_, ?_, ?_⟩
      · intro xs hxs; exact absurd hxs (by simp)
      · intro xs hxs
        rw [Option.some_inj] at hxs
        subst hxs
        exact ⟨min_le_right _ _, le_max_right _ _⟩
      · rcases min_choice (listMin (getCol post c)) (listMin ys) with hm | hm
        · exact Or.inl hm
        · exact Or.inr (Or.inr ⟨ys, rfl, hm⟩)
      · rcases max_choice (listMax (getCol post c)) (listMax ys) with hm | hm
        · exact Or.inl hm
        · exact Or.inr (Or.inr ⟨ys, rfl, hm⟩)
      · exact le_trans (min_le_left _ _)
          (le_trans (listMin_le_listMax hne) (le_max_left _ _))
  | some xs =>
    cases hnew : getCol? new c with
    | none =>
      simp only [hpri, hnew, minOpt, maxOpt, Option.map_none', Option.map_some']
      refine ⟨min_le_left _ _, le_max_left _ _, ?_, ?_, ?_, ?_, ?_⟩
      · intro zs hzs
        rw [Option.some_inj] at hzs
        subst hzs
        exact ⟨min_le_right _ _, le_max_right _ _⟩
      · intro zs hzs; exact absurd hzs (by simp)
      · rcases min_choice (listMin (getCol post c)) (listMin xs) with hm | hm
        · exact Or.inl hm
        · exact Or.inr (Or.inl ⟨xs, rfl, hm⟩)
      · rcases max_choice (listMax (getCol post c)) (listMax xs) with hm | hm
        · exact Or.inl hm
        · exact Or.inr (Or.inl ⟨xs, rfl, hm⟩)
      · exact le_trans (min_le_left _ _)
          (le_trans (listMin_le_listMax hne) (le_max_left _ _))
    | some ys =>
      simp only [hpri, hnew, minOpt, maxOpt, Option.map_some']
      refine ⟨?_, ?_, ?_, ?_, ?_, ?_, ?_⟩
      · exact le_trans (min_le_left _ _) (min_le_left _ _)
      · exact le_trans (le_max_left _ _) (le_max_left _ _)
      · intro zs hzs
        rw [Option.some_inj] at hzs
        subst hzs
        exact ⟨le_trans (min_le_left _ _) (min_le_right _ _),
          le_trans (le_max_right _ _) (le_max_left _ _)⟩
      · intro zs hzs
        rw [Option.some_inj] at hzs
        subst hzs
        exact ⟨min_le_right _ _, le_max_right _ _⟩
      · rcases min_choice (min (listMin (getCol post c)) (listMin xs)) (listMin ys) with
          hm | hm
        · rcases min_choice (listMin (getCol post c)) (listMin xs) with hm' | hm'
          · exact Or.inl (by rw [hm, hm'])
          · exact Or.inr (Or.inl ⟨xs, rfl, by rw [hm, hm']⟩)
        · exact Or.inr (Or.inr ⟨ys, rfl, hm⟩)
      · rcases max_choice (max (listMax (getCol post c)) (listMax xs)) (listMax ys) with
          hm | hm
        · rcases max_choice (listMax (getCol post c)) (listMax xs) with hm' | hm'
          · exact Or.inl (by rw [hm, hm'])
          · exact Or.inr (Or.inl ⟨xs, rfl, by rw [hm, hm']⟩)
        · exact Or.inr (Or.inr ⟨ys, rfl, hm⟩)
      · exact le_trans (le_trans (min_le_left _ _) (min_le_left _ _))
          (le_trans (listMin_le_listMax hne) (le_trans (le_max_left _ _) (le_max_left _ _)))

/-- Closed witness for `compute_bounds_spec` on concrete frames where the
prior lacks the parameter (`a_1`) and the candidate prior contains it. -/
theorem compute_bounds_spec_witness :
    "a_1" ∈ dfCols [("a_1", [1, 2])] ∧
    getCol ([("a_1", [1, 2])] : DataFrame) "a_1" ≠ [] ∧
    ∃ dom : Domain,
      (compute_bounds [("a_1", [1, 2])] [("m_1", [5])] [("a_1", [0, 7])]).lookup "a_1"
        = some dom ∧
      dom.low ≤ listMin (getCol [("a_1", [1, 2])] "a_1") ∧
      listMax (getCol [("a_1", [1, 2])] "a_1") ≤ dom.high ∧
      (∀ xs, getCol? [("m_1", [5])] "a_1" = some xs →
        dom.low ≤ listMin xs ∧ listMax xs ≤ dom.high) ∧
      (∀ xs, getCol? [("a_1", [0, 7])] "a_1" = some xs →
        dom.low ≤ listMin xs ∧ listMax xs ≤ dom.high) ∧
      (dom.low = listMin (getCol [("a_1", [1, 2])] "a_1")
        ∨ (∃ xs, getCol? [("m_1", [5])] "a_1" = some xs ∧ dom.low = listMin xs)
        ∨ (∃ xs, getCol? [("a_1", [0, 7])] "a_1" = some xs ∧ dom.low = listMin xs)) ∧
      (dom.high = listMax (getCol [("a_1", [1, 2])] "a_1")
        ∨ (∃ xs, getCol? [("m_1", [5])] "a_1" = some xs ∧ dom.high = listMax xs)
        ∨ (∃ xs, getCol? [("a_1", [0, 7])] "a_1" = some xs ∧ dom.high = listMax xs)) ∧
      dom.low ≤ dom.high :=
  ⟨by decide, by with_unfolding_all decide,
    compute_bounds_spec [("a_1", [1, 2])] [("m_1", [5])] [("a_1", [0, 7])] "a_1"
      (by decide) (by with_unfolding_all decide)⟩

/-! ## Claim theorems: C7 (bin count and bin width) -/

/-- Claim C7 counterexample: a spin column whose observed range (`1/50`) is
smaller than the configured spin bin width (`1/20`).  The derived bin count
`int((high - low) / binsize)` is 0, violating the claimed `bin count ≥ 1`
invariant, and the downstream bin-width computation fails on the
single-entry edge array (as does histogram construction, modelled by
`resolve_nbins`). -/
theorem nbins_zero_counterexample :
    get_nbins exTiny "a_1" = .ok 0 ∧
    get_binwidth exTiny "a_1" = .error "IndexError: edges has fewer than two entries" ∧
    resolve_nbins exTiny = .error "ValueError: bins must be positive, when an integer" := by
  refine ⟨?_, ?_, ?_⟩ <;> with_unfolding_all decide

theorem linspace_first_two (lo hi : ℚ) (k : ℕ) :
    linspace lo hi (k + 2)
      = lo :: (lo + (hi - lo) / ((k : ℚ) + 1))
        :: ((List.range k).map fun i : ℕ => lo + (hi - lo) * ((i : ℚ) + 2) / ((k : ℚ) + 1)) := by
  rw [linspace, if_neg (by omega), if_neg (by omega), List.range_succ_eq_map,
    List.range_succ_eq_map]
  simp only [List.map_cons, List.map_map]
  refine congrArg₂ _ (by push_cast; ring) (congrArg₂ _ (by push_cast; ring) ?_)
  apply List.map_congr_left
  intro i _
  simp only [Function.comp_apply]
  push_cast
  ring

theorem get_binwidth_of_edges {d : ISData} {c : String} {e0 e1 : ℚ} {tail : List ℚ}
    (h : get_edges d c = .ok (e0 :: e1 :: tail)) : get_binwidth d c = .ok (e1 - e0) := by
  rw [get_binwidth, h, except_bind_ok]
  rfl

/-- Claim C7 (amended): the derived bin count is `int((high - low)/binsize)`
— the floor of the range over the per-class bin width — which CAN be 0 (see
the counterexample) when the observed range is smaller than the bin width;
whenever it is at least 1, the bin width satisfies
`binwidth = (high - low) / nbins` exactly. -/
theorem nbins_binwidth_spec (d : ISData) (c : String) (bs : ℚ) (n : ℤ)
    (hbs : get_binsize d c = .ok bs)
    (hn : get_nbins d c = .ok n) :
    n = pyInt (((boundsOf d c).high - (boundsOf d c).low) / bs) ∧
    (1 ≤ n →
      get_binwidth d c
        = .ok (((boundsOf d c).high - (boundsOf d c).low) / (n : ℚ))) := by
  have hgn := hn
  rw [get_nbins, hbs, except_bind_ok, except_pure] at hn
  have hn' : n = pyInt (((boundsOf d c).high - (boundsOf d c).low) / bs) :=
    (Except.ok.injEq _ _).mp hn.symm
  refine ⟨hn', ?_⟩
  intro h1
  have h0 : (0 : ℤ) ≤ n := by omega
  have h1n : 1 ≤ n.toNat := by omega
  have hcast : ((n.toNat - 1 : ℕ) : ℚ) + 1 = (n : ℚ) := by
    have h2 : ((n.toNat : ℕ) : ℚ) = ((n : ℤ) : ℚ) := by
      exact_mod_cast congrArg (fun z : ℤ => (z : ℚ)) (Int.toNat_of_nonneg h0)
    rw [Nat.cast_sub h1n, h2]
    ring
  have h2n : n.toNat + 1 = (n.toNat - 1) + 2 := by omega
  have hedges : get_edges d c
      = .ok ((boundsOf d c).low
          :: ((boundsOf d c).low + ((boundsOf d c).high - (boundsOf d c).low) / (n : ℚ))
          :: ((List.range (n.toNat - 1)).map fun i : ℕ =>
                (boundsOf d c).low
                  + ((boundsOf d c).high - (boundsOf d c).low) * ((i : ℚ) + 2) / (n : ℚ))) := by
    rw [get_edges, hgn, except_bind_ok, except_pure, h2n, linspace_first_two, hcast]
  rw [get_binwidth_of_edges hedges]
  congr 1
  ring

/-- Closed witness for `nbins_binwidth_spec` on `exSelf` (range 1, spin bin
width 1/20, 20 bins of width 1/20). -/
theorem nbins_binwidth_spec_witness :
    (20 : ℤ) = pyInt (((boundsOf exSelf "a_1").high - (boundsOf exSelf "a_1").low) / (1/20)) ∧
    ((1 : ℤ) ≤ 20 →
      get_binwidth exSelf "a_1"
        = .ok (((boundsOf exSelf "a_1").high - (boundsOf exSelf "a_1").low) / ((20 : ℤ) : ℚ))) :=
  nbins_binwidth_spec exSelf "a_1" (1/20) 20
    (by with_unfolding_all decide) (by with_unfolding_all decide)

/-! ## Histogram counting lemmas (shared by the C4 and C5 proofs) -/

theorem binIndex?_lt {n : ℕ} {lo hi x : ℚ} {i : ℕ}
    (h : binIndex? n lo hi x = some i) : i < n := by
  rw [binIndex?] at h
  split at h
  · rename_i hcond
    obtain ⟨hlo, hhi, hn⟩ := hcond
    split at h
    · rw [Option.some_inj] at h
      omega
    · rename_i hx
      rw [Option.some_inj] at h
      subst h
      have hlt : x < hi := lt_of_le_of_ne hhi hx
      have hlohi : lo < hi := lt_of_le_of_lt hlo hlt
      have hnpos : (0 : ℚ) < n := by exact_mod_cast hn
      have hfl : ⌊(x - lo) * n / (hi - lo)⌋ < (n : ℤ) := by
        apply Int.floor_lt.mpr
        push_cast
        rw [div_lt_iff₀ (by linarith)]
        calc (x - lo) * n < (hi - lo) * n := by
              apply mul_lt_mul_of_pos_right (by linarith) hnpos
          _ = (n : ℚ) * (hi - lo) := mul_comm _ _
      omega
  · exact Option.noConfusion h

theorem binIndex?_isSome {n : ℕ} {lo hi x : ℚ} (hlo : lo ≤ x) (hhi : x ≤ hi)
    (hn : 0 < n) : (binIndex? n lo hi x).isSome := by
  rw [binIndex?, if_pos ⟨hlo, hhi, hn⟩]
  split <;> rfl

theorem indicator_sum_range {n : ℕ} (o : Option ℕ) (hlt : ∀ j, o = some j → j < n) :
    (∑ i ∈ Finset.range n, if o = some i then (1 : ℕ) else 0)
      = if o.isSome then 1 else 0 := by
  cases o with
  | none => simp
  | some j =>
    have hj : j < n := hlt j rfl
    simp only [Option.some_inj, Option.isSome_some, if_true]
    rw [Finset.sum_ite_eq (Finset.range n) j fun _ => (1 : ℕ)]
    simp [Finset.mem_range.mpr hj]

theorem counts1d_sum (samples : List ℚ) (n : ℕ) (lo hi : ℚ) :
    (counts1d samples n lo hi).sum
      = samples.countP fun x => (binIndex? n lo hi x).isSome := by
  induction samples with
  | nil =>
    rw [counts1d, list_range_map_sum]
    simp [List.countP_nil]
  | cons x s ih =>
    rw [counts1d, list_range_map_sum] at ih ⊢
    simp only [List.countP_cons, decide_eq_true_eq]
    rw [Finset.sum_add_distrib, ih]
    congr 1
    exact indicator_sum_range (binIndex? n lo hi x) fun j hj => binIndex?_lt hj

theorem sum_map_div (cs : List ℕ) (D : ℚ) :
    (cs.map fun c : ℕ => (c : ℚ) / D).sum = ((cs.sum : ℕ) : ℚ) / D := by
  simp only [div_eq_mul_inv]
  rw [List.sum_map_mul_right, Nat.cast_list_sum]

theorem len_div_mul (len : ℕ) (vol : ℚ) (hlen : 0 < len) (hvol : 0 < vol) :
    ((len : ℚ) / ((len : ℚ) * vol)) * vol = 1 := by
  have h1 : (len : ℚ) ≠ 0 := Nat.cast_ne_zero.mpr (by omega)
  have h2 : vol ≠ 0 := ne_of_gt hvol
  field_simp

theorem histDensity1d_auc (samples : List ℚ) (n : ℕ) (lo hi : ℚ)
    (hn : 0 < n) (hlohi : lo < hi) (hne : samples ≠ [])
    (hin : ∀ x ∈ samples, lo ≤ x ∧ x ≤ hi) :
    (histDensity1d samples n lo hi).sum * ((hi - lo) / n) = 1 := by
  simp only [histDensity1d]
  rw [sum_map_div, counts1d_sum]
  have hcount : (samples.countP fun x => (binIndex? n lo hi x).isSome) = samples.length := by
    rw [List.countP_eq_length]
    intro x hx
    exact binIndex?_isSome (hin x hx).1 (hin x hx).2 hn
  rw [hcount]
  have hlen : 0 < samples.length := List.length_pos.mpr hne
  have hbw : (0 : ℚ) < (hi - lo) / n := by
    apply div_pos (by linarith)
    exact_mod_cast hn
  exact len_div_mul samples.length _ hlen hbw

theorem safe_divide_cons (x y z : ℚ) (xs ys : List ℚ) :
    safe_divide (x :: xs) (y :: ys) z
      = (if z < y then x / y else 0) :: safe_divide xs ys z := rfl

theorem zipWith_mul_safe_divide_self (h : List ℚ) (z : ℚ) (hz : 0 ≤ z)
    (hgap : ∀ v ∈ h, v = 0 ∨ z < v) :
    List.zipWith (· * ·) h (safe_divide h h z) = h := by
  induction h with
  | nil => rfl
  | cons v vs ih =>
    rw [safe_divide_cons, List.zipWith_cons_cons]
    have hhead : (v * if z < v then v / v else 0) = v := by
      rcases hgap v (List.mem_cons_self v vs) with rfl | hv
      · rw [zero_mul]
      · rw [if_pos hv, div_self (ne_of_gt (lt_of_le_of_lt hz hv)), mul_one]
    rw [hhead, ih fun w hw => hgap w (List.mem_cons_of_mem v hw)]

theorem zipWith_safe_divide_swap (a : List ℚ) :
    ∀ (b den : List ℚ) (z : ℚ),
      (List.zipWith (· * ·) a (safe_divide b den z)).sum
        = (List.zipWith (· * ·) b (safe_divide a den z)).sum := by
  induction a with
  | nil => intro b den z; cases b <;> cases den <;> simp [safe_divide]
  | cons x xs ih =>
    intro b den z
    cases b with
    | nil => cases den <;> simp [safe_divide]
    | cons y ys =>
      cases den with
      | nil => simp [safe_divide]
      | cons w ws =>
        rw [safe_divide_cons, safe_divide_cons, List.zipWith_cons_cons,
          List.zipWith_cons_cons, List.sum_cons, List.sum_cons, ih ys ws z]
        congr 1
        by_cases hzw : z < w
        · rw [if_pos hzw, if_pos hzw]
          ring
        · rw [if_neg hzw, if_neg hzw, mul_zero, mul_zero]

theorem binsProd_cons (b : ℕ × ℚ × ℚ) (bs : BinsDD) :
    binsProd (b :: bs) = b.1 * binsProd bs := by
  rw [binsProd, binsProd, List.map_cons, List.prod_cons]

theorem rowIndex?_lt : ∀ {bins : BinsDD} {r : List ℚ} {c : ℕ},
    rowIndex? bins r = some c → c < binsProd bins := by
  intro bins
  induction bins with
  | nil =>
    intro r c h
    cases r with
    | nil =>
      rw [rowIndex?, Option.some_inj] at h
      subst h
      decide
    | cons x xs => exact Option.noConfusion h
  | cons b bs ih =>
    intro r c h
    cases r with
    | nil => exact Option.noConfusion h
    | cons x xs =>
      rw [rowIndex?] at h
      cases hb : binIndex? b.1 b.2.1 b.2.2 x with
      | none => rw [hb] at h; exact Option.noConfusion h
      | some i =>
        cases hr : rowIndex? bs xs with
        | none => rw [hb, hr] at h; exact Option.noConfusion h
        | some rr =>
          rw [hb, hr] at h
          simp at h
          subst h
          have h1 := binIndex?_lt hb
          have h2 := ih hr
          rw [binsProd_cons]
          calc i * binsProd bs + rr < i * binsProd bs + binsProd bs := by omega
            _ = (i + 1) * binsProd bs := by ring
            _ ≤ b.1 * binsProd bs := Nat.mul_le_mul_right _ (by omega)

theorem rowIndex?_isSome {bins : BinsDD} {r : List ℚ}
    (h : List.Forall₂ (fun (b : ℕ × ℚ × ℚ) (x : ℚ) => 0 < b.1 ∧ b.2.1 ≤ x ∧ x ≤ b.2.2)
      bins r) : (rowIndex? bins r).isSome := by
  induction h with
  | nil => rfl
  | cons hb _ ih =>
    rename_i b x bs xs _
    obtain ⟨hn, hlo, hhi⟩ := hb
    obtain ⟨i, hi⟩ := Option.isSome_iff_exists.mp (binIndex?_isSome hlo hhi hn)
    obtain ⟨rr, hrr⟩ := Option.isSome_iff_exists.mp ih
    rw [rowIndex?]
    simp [hi, hrr]

theorem countsDD_sum (rows : List (List ℚ)) (bins : BinsDD) :
    (countsDD rows bins).sum = rows.countP fun r => (rowIndex? bins r).isSome := by
  induction rows with
  | nil =>
    rw [countsDD, list_range_map_sum]
    simp [List.countP_nil]
  | cons r s ih =>
    rw [countsDD, list_range_map_sum] at ih ⊢
    simp only [List.countP_cons, decide_eq_true_eq]
    rw [Finset.sum_add_distrib, ih]
    congr 1
    exact indicator_sum_range (rowIndex? bins r) fun j hj => rowIndex?_lt hj

theorem histDensityDD_auc (rows : List (List ℚ)) (bins : BinsDD)
    (hvol : 0 < binVolume bins) (hne : rows ≠ [])
    (hin : ∀ r ∈ rows, (rowIndex? bins r).isSome) :
    (histDensityDD rows bins).sum * binVolume bins = 1 := by
  simp only [histDensityDD]
  rw [sum_map_div, countsDD_sum]
  have hcount : (rows.countP fun r => (rowIndex? bins r).isSome) = rows.length :=
    List.countP_eq_length.mpr fun r hr => hin r hr
  rw [hcount]
  exact len_div_mul rows.length _ (List.length_pos.mpr hne) hvol

/-! ## Resolution and dataframe facts -/

theorem get_binsize_ok_cases {d : ISData} {c : String} {bs : ℚ}
    (h : get_binsize d c = .ok bs) : bs = d.binsize_spin ∨ bs = d.binsize_mass := by
  rw [get_binsize] at h
  split at h
  · exact Or.inl ((Except.ok.injEq _ _).mp h).symm
  · split at h
    · exact Or.inr ((Except.ok.injEq _ _).mp h).symm
    · exact Except.noConfusion h

theorem pyInt_ge_one {q : ℚ} (h : 1 ≤ pyInt q) : 1 ≤ q := by
  rw [pyInt] at h
  split at h
  · exact_mod_cast Int.le_floor.mp h
  · exfalso
    rename_i hq
    have h1 : (0 : ℚ) ≤ -q := by linarith [lt_of_not_le hq]
    have h2 : 0 ≤ ⌊-q⌋ := Int.floor_nonneg.mpr h1
    omega

theorem resolve_ok_col {d : ISData} {ns : List ℕ} (hres : resolve_nbins d = .ok ns)
    (hbs : 0 < d.binsize_spin) (hbm : 0 < d.binsize_mass)
    {c : String} (hc : c ∈ common_columns d) :
    0 < colNbins d c ∧ (boundsOf d c).low < (boundsOf d c).high := by
  obtain ⟨b, hb⟩ := exceptMapM_ok_mem hres c hc
  cases hn : get_nbins d c with
  | error e =>
    rw [hn, except_bind_error] at hb
    exact Except.noConfusion hb
  | ok n =>
    rw [hn, except_bind_ok] at hb
    by_cases hle : n ≤ 0
    · rw [if_pos hle] at hb
      exact Except.noConfusion hb
    · have h1 : 1 ≤ n := by omega
      have hcol : colNbins d c = n.toNat := by rw [colNbins, hn]
      refine ⟨by omega, ?_⟩
      cases hbsz : get_binsize d c with
      | error e =>
        rw [get_nbins, hbsz, except_bind_error] at hn
        exact Except.noConfusion hn
      | ok bsz =>
        rw [get_nbins, hbsz, except_bind_ok, except_pure, Except.ok.injEq] at hn
        have hbszpos : 0 < bsz := by
          rcases get_binsize_ok_cases hbsz with rfl | rfl
          · exact hbs
          · exact hbm
        have hq : 1 ≤ ((boundsOf d c).high - (boundsOf d c).low) / bsz := by
          apply pyInt_ge_one
          rw [hn]
          exact h1
        have := (one_le_div hbszpos).mp hq
        linarith

theorem lookup_isSome_of_mem_dfCols {df : DataFrame} {c : String} (hc : c ∈ dfCols df) :
    (df.lookup c).isSome := by
  induction df with
  | nil => exact absurd hc (by simp [dfCols])
  | cons p ps ih =>
    by_cases h : c = p.1
    · cases p with
      | mk k v =>
        subst h
        simp [List.lookup]
    · cases p with
      | mk k v =>
        have hbeq : (c == k) = false := beq_eq_false_iff_ne.mpr h
        have hc' : c ∈ dfCols ps := by
          rw [dfCols, List.map_cons] at hc
          rcases List.mem_cons.mp hc with h' | h'
          · exact absurd h' h
          · exact h'
        simpa [List.lookup, hbeq] using ih hc'

theorem lookup_mem {df : DataFrame} {c : String} {v : List ℚ}
    (h : df.lookup c = some v) : (c, v) ∈ df := by
  induction df with
  | nil => exact Option.noConfusion h
  | cons p ps ih =>
    cases p with
    | mk k w =>
      by_cases hck : c = k
      · subst hck
        simp [List.lookup] at h
        subst h
        exact List.mem_cons_self _ _
      · have hbeq : (c == k) = false := beq_eq_false_iff_ne.mpr hck
        rw [List.lookup, hbeq] at h
        exact List.mem_cons_of_mem _ (ih h)

theorem getCol_length {df : DataFrame} (hwf : WFFrame df) {c : String}
    (h : (df.lookup c).isSome) : (getCol df c).length = nRows df := by
  obtain ⟨v, hv⟩ := Option.isSome_iff_exists.mp h
  rw [getCol, hv, Option.getD_some]
  exact hwf (c, v) (lookup_mem hv)

theorem common_columns_facts {d : ISData} {c : String} (hc : c ∈ common_columns d) :
    c ∈ dfCols d.posterior_samples ∧ (d.prior_samples.lookup c).isSome ∧
      (d.new_prior_samples.lookup c).isSome := by
  rw [common_columns] at hc
  obtain ⟨h1, h2⟩ := List.mem_filter.mp hc
  rw [Bool.and_eq_true] at h2
  exact ⟨h1, by simpa [getCol?] using h2.1, by simpa [getCol?] using h2.2⟩

theorem range_map_getD (xs : List ℚ) :
    (List.range xs.length).map (fun i => xs.getD i 0) = xs := by
  apply List.ext_getElem
  · simp
  · intro i h1 h2
    simp [List.getElem?_eq_getElem h2]

theorem rowIndex?_single (n : ℕ) (lo hi x : ℚ) :
    rowIndex? [(n, lo, hi)] [x] = binIndex? n lo hi x := by
  rw [rowIndex?]
  cases hb : binIndex? n lo hi x with
  | none => simp [hb]
  | some j => simp [hb, rowIndex?, binsProd]

theorem histDensityDD_single (xs : List ℚ) (n : ℕ) (lo hi : ℚ) :
    histDensityDD (xs.map fun x => [x]) [(n, lo, hi)] = histDensity1d xs n lo hi := by
  have hprod : binsProd [(n, lo, hi)] = n := by
    rw [binsProd]
    simp
  have hcounts : countsDD (xs.map fun x => [x]) [(n, lo, hi)] = counts1d xs n lo hi := by
    rw [countsDD, counts1d, hprod]
    apply List.map_congr_left
    intro i _
    rw [List.countP_map]
    congr 1
    funext x
    simp [Function.comp, rowIndex?_single]
  have hvol : binVolume [(n, lo, hi)] = (hi - lo) / n := by
    rw [binVolume]
    simp
  simp only [histDensityDD, histDensity1d]
  rw [hcounts, hvol]

theorem dfRows_single {df : DataFrame} {c : String} (hlen : (getCol df c).length = nRows df) :
    dfRows df [c] = (getCol df c).map fun x => [x] := by
  rw [dfRows]
  have h1 : (fun i => [c].map fun c' => (getCol df c').getD i 0)
      = fun i => [(getCol df c).getD i 0] := rfl
  rw [h1]
  have h2 : (List.range (nRows df)).map (fun i => [(getCol df c).getD i 0])
      = ((List.range (nRows df)).map fun i => (getCol df c).getD i 0).map fun x => [x] := by
    rw [List.map_map]
    rfl
  rw [h2, ← hlen, range_map_getD]

theorem binVolume_single (n : ℕ) (lo hi : ℚ) : binVolume [(n, lo, hi)] = (hi - lo) / n := by
  rw [binVolume]
  simp

/-! ## Claim theorems: C5 (strategy agreement), amended part -/

/-- Claim C5 (amended): with exactly one shared parameter, whenever the
independent strategy's correction weights do not all vanish (its
`weights.sum() == 0` guard is not triggered — see the counterexample for the
degenerate case), the independent and joint strategies return exactly the
same Bayes factor on the same inputs. -/
theorem strategies_agree_one_param (d : ISData) (ztol : ℚ) (c : String) (ns : List ℕ)
    (hpostwf : WFFrame d.posterior_samples)
    (hpriwf : WFFrame d.prior_samples)
    (hnewwf : WFFrame d.new_prior_samples)
    (hcols : common_columns d = [c])
    (hres : resolve_nbins d = .ok ns)
    (hw : (priorWeights d ztol).sum ≠ 0) :
    get_bayes_factor_1d d ztol = get_bayes_factor_dd d ztol := by
  have hc : c ∈ common_columns d := by
    rw [hcols]
    exact List.mem_cons_self c []
  obtain ⟨hcpost, hcpri, hcnew⟩ := common_columns_facts hc
  have hlenpost : (getCol d.posterior_samples c).length = nRows d.posterior_samples :=
    getCol_length hpostwf (lookup_isSome_of_mem_dfCols hcpost)
  have hlenpri := getCol_length hpriwf hcpri
  have hlennew := getCol_length hnewwf hcnew
  rw [get_bayes_factor_1d, get_bayes_factor_dd, hres, except_bind_ok, except_bind_ok,
    except_pure, except_pure]
  congr 1
  rw [bf1dCore, if_neg hw, hcols, List.map_cons, List.map_nil, List.prod_cons, List.prod_nil,
    mul_one]
  simp only [bfDDCore]
  rw [ddBins, hcols, List.map_cons, List.map_nil, dfRows_single hlenpost,
    dfRows_single hlenpri, dfRows_single hlennew, histDensityDD_single, histDensityDD_single,
    histDensityDD_single, binVolume_single, colBF, colBW]
  simp only [colHist]
  rw [zipWith_safe_divide_swap]

/-- Closed witness for `strategies_agree_one_param` on `exSelf`: one shared
spin parameter, non-vanishing correction weights, both strategies return 1. -/
theorem strategies_agree_one_param_witness :
    get_bayes_factor_1d exSelf (1/100000000) = get_bayes_factor_dd exSelf (1/100000000) :=
  strategies_agree_one_param exSelf (1/100000000) "a_1" [20]
    (by with_unfolding_all decide) (by with_unfolding_all decide)
    (by with_unfolding_all decide) (by with_unfolding_all decide)
    (by with_unfolding_all decide) (by with_unfolding_all decide)

/-! ## Claim theorems: C4 (self-consistency), amended part -/

theorem boundsOf_self (df : DataFrame) (bs bm : ℚ) (c : String) :
    boundsOf (selfData df bs bm) c
      = { low := listMin (getCol df c), high := listMax (getCol df c) } := by
  rw [boundsOf]
  simp [selfData]

/-- A positive bin density at or below the `ztol` floor loses its mass
through `_safe_divide`, pulling the self-Bayes-factor below 1: with the
frame `[("a_1", [0, 0, 1/2])]` in all three roles and `ztol = 10`, bin
resolution succeeds, the histogram integrates to exactly 1 (no warning), the
correction weights sum to 40 (they do not vanish), yet the independent
strategy returns `2/3`.  This shows the bin-cleanliness side conditions of
the self-consistency theorem below are necessary, not incidental. -/
theorem ztol_floor_mass_loss :
    resolve_nbins (selfData [("a_1", [0, 0, 1/2])] (1/20) 1) = .ok [10] ∧
    get_histogram_1d (getCol [("a_1", [0, 0, 1/2])] "a_1") 10 0 (1/2)
      = { hist := histDensity1d (getCol [("a_1", [0, 0, 1/2])] "a_1") 10 0 (1/2),
          warned := false } ∧
    (priorWeights (selfData [("a_1", [0, 0, 1/2])] (1/20) 1) 10).sum = 40 ∧
    get_bayes_factor_1d (selfData [("a_1", [0, 0, 1/2])] (1/20) 1) 10 = .ok (2/3) := by
  refine ⟨?_, ?_, ?_, ?_⟩ <;> with_unfolding_all decide

/-- Claim C4 (amended): for any dataset `D` (used as prior, posterior and
candidate prior alike) such that (i) bin resolution succeeds and the
histograms pass the integral invariant, (ii) every bin of the per-column
histograms and every cell of the joint histogram has density either zero or
strictly above the `ztol` floor, and (iii) the correction weights do not all
vanish, `get_bayes_factor(prior=D, posterior=D, candidate_prior=D)` is
exactly 1 — in particular ≈ 1 within any tolerance — in BOTH manners of
computing it.  Both side conditions are necessary: without (iii) the
independent strategy returns 0 through its guard (see the counterexample),
and without (ii) mass in positive bins at or below `ztol` is dropped by
`_safe_divide` and the result falls strictly below 1 (see
`ztol_floor_mass_loss` above). -/
theorem self_bayes_factor (df : DataFrame) (bs bm ztol : ℚ) (ns : List ℕ)
    (hwf : WFFrame df) (hrows : 0 < nRows df)
    (hbs : 0 < bs) (hbm : 0 < bm) (hz : 0 ≤ ztol)
    (hres : resolve_nbins (selfData df bs bm) = .ok ns)
    (hgap1 : ∀ c ∈ common_columns (selfData df bs bm),
      ∀ v ∈ colHist (selfData df bs bm) df c, v = 0 ∨ ztol < v)
    (hgapdd : ∀ v ∈ histDensityDD (dfRows df (common_columns (selfData df bs bm)))
        (ddBins (selfData df bs bm)), v = 0 ∨ ztol < v)
    (hw : (priorWeights (selfData df bs bm) ztol).sum ≠ 0) :
    get_bayes_factor_1d (selfData df bs bm) ztol = .ok 1 ∧
    get_bayes_factor_dd (selfData df bs bm) ztol = .ok 1 := by
  have hcol_len : ∀ c ∈ common_columns (selfData df bs bm),
      (getCol df c).length = nRows df := by
    intro c hc
    obtain ⟨hcpost, _, _⟩ := common_columns_facts hc
    exact getCol_length hwf (lookup_isSome_of_mem_dfCols hcpost)
  have hcol_mem : ∀ (c : String), ∀ x ∈ getCol df c,
      (boundsOf (selfData df bs bm) c).low ≤ x
        ∧ x ≤ (boundsOf (selfData df bs bm) c).high := by
    intro c x hx
    rw [boundsOf_self]
    exact ⟨listMin_le_mem hx, mem_le_listMax hx⟩
  constructor
  · rw [get_bayes_factor_1d, hres, except_bind_ok, except_pure]
    congr 1
    rw [bf1dCore, if_neg hw]
    apply List.prod_eq_one
    intro v hv
    obtain ⟨c, hc, rfl⟩ := List.mem_map.mp hv
    obtain ⟨hn, hlh⟩ := resolve_ok_col hres hbs hbm hc
    have hlen := hcol_len c hc
    have hne : getCol df c ≠ [] := by
      apply List.ne_nil_of_length_pos.{0}
      omega
    show (List.zipWith (· * ·) (colHist (selfData df bs bm) df c)
        (safe_divide (colHist (selfData df bs bm) df c) (colHist (selfData df bs bm) df c)
          ztol)).sum * colBW (selfData df bs bm) c = 1
    rw [zipWith_mul_safe_divide_self (colHist (selfData df bs bm) df c) ztol hz (hgap1 c hc)]
    rw [colHist, colBW]
    exact histDensity1d_auc _ _ _ _ hn hlh hne fun x hx => hcol_mem c x hx
  · rw [get_bayes_factor_dd, hres, except_bind_ok, except_pure]
    congr 1
    show (List.zipWith (· * ·)
        (histDensityDD (dfRows df (common_columns (selfData df bs bm)))
          (ddBins (selfData df bs bm)))
        (safe_divide
          (histDensityDD (dfRows df (common_columns (selfData df bs bm)))
            (ddBins (selfData df bs bm)))
          (histDensityDD (dfRows df (common_columns (selfData df bs bm)))
            (ddBins (selfData df bs bm))) ztol)).sum
        * binVolume (ddBins (selfData df bs bm)) = 1
    rw [zipWith_mul_safe_divide_self _ ztol hz hgapdd]
    apply histDensityDD_auc
    · rw [binVolume, ddBins, List.map_map]
      apply List.prod_pos
      intro a ha
      obtain ⟨c, hc, rfl⟩ := List.mem_map.mp ha
      obtain ⟨hn, hlh⟩ := resolve_ok_col hres hbs hbm hc
      simp only [Function.comp_apply]
      apply div_pos (by linarith)
      exact_mod_cast hn
    · rw [dfRows]
      apply List.ne_nil_of_length_pos.{0}
      rw [List.length_map, List.length_range]
      exact hrows
    · intro r hr
      rw [dfRows] at hr
      obtain ⟨i, hi, rfl⟩ := List.mem_map.mp hr
      rw [List.mem_range] at hi
      apply rowIndex?_isSome
      rw [ddBins, List.forall₂_map_left_iff, List.forall₂_map_right_iff, List.forall₂_same]
      intro c hc
      obtain ⟨hn, hlh⟩ := resolve_ok_col hres hbs hbm hc
      refine ⟨hn, ?_⟩
      have hlen := hcol_len c hc
      have hilen : i < (getCol df c).length := by omega
      have hmem' : (getCol df c).getD i 0 ∈ getCol df c := by
        rw [List.getD_eq_getElem?_getD, List.getElem?_eq_getElem hilen, Option.getD_some]
        exact List.getElem_mem hilen
      exact hcol_mem c _ hmem'

/-- Closed witness for `self_bayes_factor` on the frame `[("a_1", [0, 1])]`
used in all three roles: 20 clean spin bins, non-vanishing weights, Bayes
factor exactly 1 in both strategies. -/
theorem self_bayes_factor_witness :
    get_bayes_factor_1d (selfData [("a_1", [0, 1])] (1/20) 1) (1/100000000) = .ok 1 ∧
    get_bayes_factor_dd (selfData [("a_1", [0, 1])] (1/20) 1) (1/100000000) = .ok 1 :=
  self_bayes_factor [("a_1", [0, 1])] (1/20) 1 (1/100000000) [20]
    (by with_unfolding_all decide) (by with_unfolding_all decide)
    (by with_unfolding_all decide) (by with_unfolding_all decide)
    (by with_unfolding_all decide) (by with_unfolding_all decide)
    (by with_unfolding_all decide) (by with_unfolding_all decide)
    (by with_unfolding_all decide)

/-! ## Percentile lemmas (for C8) -/

theorem sortedOf_sorted (xs : List ℚ) : List.Sorted (· ≤ ·) (sortedOf xs) :=
  List.sorted_insertionSort _ xs

theorem sortedOf_perm (xs : List ℚ) : List.Perm (sortedOf xs) xs :=
  List.perm_insertionSort _ xs

theorem sortedOf_length (xs : List ℚ) : (sortedOf xs).length = xs.length :=
  (sortedOf_perm xs).length_eq

theorem sorted_getD_mono {s : List ℚ} (hs : List.Sorted (· ≤ ·) s) {i j : ℕ}
    (hij : i ≤ j) (hj : j < s.length) : s.getD i 0 ≤ s.getD j 0 := by
  have hi : i < s.length := lt_of_le_of_lt hij hj
  rw [List.getD_eq_getElem?_getD, List.getElem?_eq_getElem hi, Option.getD_some,
    List.getD_eq_getElem?_getD, List.getElem?_eq_getElem hj, Option.getD_some]
  have := hs.rel_get_of_le (a := ⟨i, hi⟩) (b := ⟨j, hj⟩) hij
  simpa using this

theorem getD_zero_mem {s : List ℚ} (h : s ≠ []) : s.getD 0 0 ∈ s := by
  cases s with
  | nil => exact absurd rfl h
  | cons a l => exact List.mem_cons_self a l

theorem getD_last_mem {s : List ℚ} (h : s ≠ []) : s.getD (s.length - 1) 0 ∈ s := by
  have hlt : s.length - 1 < s.length := by
    have := List.length_pos.mpr h
    omega
  rw [List.getD_eq_getElem?_getD, List.getElem?_eq_getElem hlt, Option.getD_some]
  exact List.getElem_mem hlt

theorem floor_toNat_cast {p : ℚ} (h0 : 0 ≤ p) : (((⌊p⌋).toNat : ℕ) : ℚ) = (⌊p⌋ : ℚ) := by
  have := Int.floor_nonneg.mpr h0
  exact_mod_cast congrArg (fun z : ℤ => (z : ℚ)) (Int.toNat_of_nonneg this)

theorem interpAt_le_getD {s : List ℚ} (hs : List.Sorted (· ≤ ·) s) {p : ℚ}
    (h0 : 0 ≤ p) (hlt : (⌊p⌋).toNat + 1 < s.length) :
    interpAt s p ≤ s.getD ((⌊p⌋).toNat + 1) 0 := by
  simp only [interpAt]
  rw [if_pos hlt]
  have hfrac0 : 0 ≤ p - (((⌊p⌋).toNat : ℕ) : ℚ) := by
    rw [floor_toNat_cast h0]
    linarith [Int.floor_le p]
  have hfrac1 : p - (((⌊p⌋).toNat : ℕ) : ℚ) ≤ 1 := by
    rw [floor_toNat_cast h0]
    linarith [Int.lt_floor_add_one p]
  have hd : 0 ≤ s.getD ((⌊p⌋).toNat + 1) 0 - s.getD ((⌊p⌋).toNat) 0 := by
    have := sorted_getD_mono hs (Nat.le_succ (⌊p⌋).toNat) hlt
    linarith
  nlinarith

theorem getD_le_interpAt {s : List ℚ} (hs : List.Sorted (· ≤ ·) s) {p : ℚ}
    (h0 : 0 ≤ p) (hj : (⌊p⌋).toNat < s.length) :
    s.getD ((⌊p⌋).toNat) 0 ≤ interpAt s p := by
  simp only [interpAt]
  have hfrac0 : 0 ≤ p - (((⌊p⌋).toNat : ℕ) : ℚ) := by
    rw [floor_toNat_cast h0]
    linarith [Int.floor_le p]
  by_cases hlt : (⌊p⌋).toNat + 1 < s.length
  · rw [if_pos hlt]
    have hd : 0 ≤ s.getD ((⌊p⌋).toNat + 1) 0 - s.getD ((⌊p⌋).toNat) 0 := by
      have := sorted_getD_mono hs (Nat.le_succ (⌊p⌋).toNat) hlt
      linarith
    nlinarith
  · rw [if_neg hlt]
    apply sorted_getD_mono hs (by omega) (by omega)

theorem interpAt_zero {s : List ℚ} (hne : s ≠ []) : interpAt s 0 = s.getD 0 0 := by
  have hlen : 1 ≤ s.length := List.length_pos.mpr hne
  simp only [interpAt]
  have h1 : (⌊(0 : ℚ)⌋).toNat = 0 := by
    rw [Int.floor_zero]
    rfl
  rw [h1]
  by_cases hlt : 0 + 1 < s.length
  · rw [if_pos hlt]
    push_cast
    ring
  · rw [if_neg hlt]
    have : s.length = 1 := by omega
    rw [this]

theorem interpAt_last {s : List ℚ} (hne : s ≠ []) :
    interpAt s ((s.length : ℚ) - 1) = s.getD (s.length - 1) 0 := by
  have hlen : 1 ≤ s.length := List.length_pos.mpr hne
  have hfl : ⌊(s.length : ℚ) - 1⌋ = (s.length : ℤ) - 1 := by
    have : ((s.length : ℚ) - 1) = (((s.length : ℤ) - 1 : ℤ) : ℚ) := by push_cast; ring
    rw [this, Int.floor_intCast]
  simp only [interpAt]
  rw [hfl]
  have htn : ((s.length : ℤ) - 1).toNat = s.length - 1 := by omega
  rw [htn, if_neg (by omega)]

theorem interpAt_mono {s : List ℚ} (hs : List.Sorted (· ≤ ·) s) (hne : s ≠ [])
    {p q : ℚ} (h0 : 0 ≤ p) (hpq : p ≤ q) (hq : q ≤ (s.length : ℚ) - 1) :
    interpAt s p ≤ interpAt s q := by
  have h0q : 0 ≤ q := le_trans h0 hpq
  have hn : 1 ≤ s.length := List.length_pos.mpr hne
  have hjq : (⌊q⌋).toNat ≤ s.length - 1 := by
    have h1 : ⌊q⌋ ≤ (s.length : ℤ) - 1 := by
      have h2 : ⌊q⌋ ≤ ⌊(s.length : ℚ) - 1⌋ := Int.floor_le_floor hq
      have h3 : ⌊(s.length : ℚ) - 1⌋ = (s.length : ℤ) - 1 := by
        have : ((s.length : ℚ) - 1) = (((s.length : ℤ) - 1 : ℤ) : ℚ) := by push_cast; ring
        rw [this, Int.floor_intCast]
      omega
    omega
  by_cases heq : (⌊p⌋).toNat = (⌊q⌋).toNat
  · simp only [interpAt]
    rw [heq]
    by_cases hlt : (⌊q⌋).toNat + 1 < s.length
    · rw [if_pos hlt, if_pos hlt]
      have hd : 0 ≤ s.getD ((⌊q⌋).toNat + 1) 0 - s.getD ((⌊q⌋).toNat) 0 := by
        have := sorted_getD_mono hs (Nat.le_succ (⌊q⌋).toNat) hlt
        linarith
      nlinarith
    · rw [if_neg hlt, if_neg hlt]
  · have hij : (⌊p⌋).toNat < (⌊q⌋).toNat := by
      have h4 : ⌊p⌋ ≤ ⌊q⌋ := Int.floor_le_floor hpq
      have h5 : 0 ≤ ⌊p⌋ := Int.floor_nonneg.mpr h0
      omega
    have hi1 : (⌊p⌋).toNat + 1 < s.length := by omega
    calc interpAt s p ≤ s.getD ((⌊p⌋).toNat + 1) 0 := interpAt_le_getD hs h0 hi1
      _ ≤ s.getD ((⌊q⌋).toNat) 0 := sorted_getD_mono hs (by omega) (by omega)
      _ ≤ interpAt s q := getD_le_interpAt hs h0q (by omega)

theorem sortedOf_ne_nil {xs : List ℚ} (hne : xs ≠ []) : sortedOf xs ≠ [] := by
  intro h
  apply hne
  have := sortedOf_length xs
  rw [h] at this
  exact List.length_eq_zero.mp this.symm

theorem quantile_mem_bounds (xs : List ℚ) (q : ℚ) (hne : xs ≠ [])
    (h0 : 0 ≤ q) (h1 : q ≤ 1) :
    listMin xs ≤ quantile xs q ∧ quantile xs q ≤ listMax xs := by
  have hsne := sortedOf_ne_nil hne
  have hs := sortedOf_sorted xs
  have hlen := sortedOf_length xs
  have hn1 : 1 ≤ xs.length := List.length_pos.mpr hne
  have hd1 : (0 : ℚ) ≤ (xs.length : ℚ) - 1 := by
    have : (1 : ℚ) ≤ (xs.length : ℚ) := by exact_mod_cast hn1
    linarith
  have hpos0 : 0 ≤ q * ((xs.length : ℚ) - 1) := mul_nonneg h0 hd1
  have hposle : q * ((xs.length : ℚ) - 1) ≤ (sortedOf xs).length - 1 := by
    rw [hlen]
    nlinarith
  constructor
  · calc listMin xs ≤ (sortedOf xs).getD 0 0 :=
          listMin_le_mem ((sortedOf_perm xs).subset (getD_zero_mem hsne))
      _ = interpAt (sortedOf xs) 0 := (interpAt_zero hsne).symm
      _ ≤ interpAt (sortedOf xs) (q * ((xs.length : ℚ) - 1)) :=
          interpAt_mono hs hsne (le_refl 0) hpos0 hposle
      _ = quantile xs q := rfl
  · calc quantile xs q
        ≤ interpAt (sortedOf xs) (((sortedOf xs).length : ℚ) - 1) :=
          interpAt_mono hs hsne hpos0 (by rw [hlen] at hposle ⊢; exact hposle) (le_refl _)
      _ = (sortedOf xs).getD ((sortedOf xs).length - 1) 0 := interpAt_last hsne
      _ ≤ listMax xs := mem_le_listMax ((sortedOf_perm xs).subset (getD_last_mem hsne))

theorem percentile_mono (xs : List ℚ) {q1 q2 : ℚ} (hne : xs ≠ [])
    (h0 : 0 ≤ q1) (h12 : q1 ≤ q2) (h2 : q2 ≤ 100) :
    percentile xs q1 ≤ percentile xs q2 := by
  have hsne := sortedOf_ne_nil hne
  have hs := sortedOf_sorted xs
  have hlen := sortedOf_length xs
  have hn1 : 1 ≤ xs.length := List.length_pos.mpr hne
  have hd1 : (0 : ℚ) ≤ (xs.length : ℚ) - 1 := by
    have : (1 : ℚ) ≤ (xs.length : ℚ) := by exact_mod_cast hn1
    linarith
  apply interpAt_mono hs hsne
  · exact mul_nonneg (by linarith) hd1
  · apply mul_le_mul_of_nonneg_right (by linarith) hd1
  · rw [hlen]
    nlinarith

/-! ## Threshold-spacing lemmas (for C8) -/

theorem linspace_head (lo hi : ℚ) (num : ℕ) (h2 : 2 ≤ num) :
    (linspace lo hi num).head? = some lo := by
  obtain ⟨k, rfl⟩ : ∃ k, num = k + 2 := ⟨num - 2, by omega⟩
  rw [linspace_first_two]
  rfl

theorem linspace_getLast (lo hi : ℚ) (num : ℕ) (h2 : 2 ≤ num) :
    (linspace lo hi num).getLast? = some hi := by
  rw [linspace, if_neg (by omega), if_neg (by omega)]
  obtain ⟨k, rfl⟩ : ∃ k, num = k + 1 := ⟨num - 1, by omega⟩
  rw [List.range_succ, List.map_append, List.map_cons, List.map_nil, List.getLast?_concat]
  congr 1
  have hk : (1 : ℕ) ≤ k := by omega
  have hkq : (k : ℚ) ≠ 0 := Nat.cast_ne_zero.mpr (by omega)
  push_cast
  field_simp

theorem linspace_pairwise (lo hi : ℚ) (num : ℕ) (h : lo ≤ hi) :
    (linspace lo hi num).Pairwise (· ≤ ·) := by
  rw [linspace]
  split
  · exact List.Pairwise.nil
  · split
    · exact List.pairwise_singleton _ _
    · rename_i h0 h1
      rw [List.pairwise_map]
      apply List.Pairwise.imp ?_ (List.pairwise_lt_range num)
      intro i j hij
      have hnum : 2 ≤ num := by omega
      have hd : (0 : ℚ) < (num : ℚ) - 1 := by
        have : (2 : ℚ) ≤ (num : ℚ) := by exact_mod_cast hnum
        linarith
      have hij' : (i : ℚ) ≤ (j : ℚ) := by exact_mod_cast le_of_lt hij
      have hA : (0 : ℚ) ≤ hi - lo := by linarith
      gcongr

theorem linspaceR_head (lo hi : ℝ) (num : ℕ) (h2 : 2 ≤ num) :
    (linspaceR lo hi num).head? = some lo := by
  rw [linspaceR, if_neg (by omega), if_neg (by omega)]
  obtain ⟨k, rfl⟩ : ∃ k, num = k + 1 := ⟨num - 1, by omega⟩
  rw [List.range_succ_eq_map, List.map_cons, List.head?_cons]
  congr 1
  push_cast
  ring

theorem linspaceR_getLast (lo hi : ℝ) (num : ℕ) (h2 : 2 ≤ num) :
    (linspaceR lo hi num).getLast? = some hi := by
  rw [linspaceR, if_neg (by omega), if_neg (by omega)]
  obtain ⟨k, rfl⟩ : ∃ k, num = k + 1 := ⟨num - 1, by omega⟩
  rw [List.range_succ, List.map_append, List.map_cons, List.map_nil, List.getLast?_concat]
  congr 1
  have hk : (1 : ℕ) ≤ k := by omega
  have hkq : (k : ℝ) ≠ 0 := Nat.cast_ne_zero.mpr (by omega)
  push_cast
  field_simp

theorem linspaceR_pairwise (lo hi : ℝ) (num : ℕ) (h : lo ≤ hi) :
    (linspaceR lo hi num).Pairwise (· ≤ ·) := by
  rw [linspaceR]
  split
  · exact List.Pairwise.nil
  · split
    · exact List.pairwise_singleton _ _
    · rename_i h0 h1
      rw [List.pairwise_map]
      apply List.Pairwise.imp ?_ (List.pairwise_lt_range num)
      intro i j hij
      have hnum : 2 ≤ num := by omega
      have hd : (0 : ℝ) < (num : ℝ) - 1 := by
        have : (2 : ℝ) ≤ (num : ℝ) := by exact_mod_cast hnum
        linarith
      have hij' : (i : ℝ) ≤ (j : ℝ) := by exact_mod_cast le_of_lt hij
      have hA : (0 : ℝ) ≤ hi - lo := by linarith
      gcongr

theorem map_getD_eq (f : List ℚ → ℚ) {l : List (List ℚ)} {i : ℕ} (hi : i < l.length) :
    (l.map f).getD i 0 = f (l.getD i []) := by
  rw [List.getD_eq_getElem?_getD, List.getElem?_map, List.getElem?_eq_getElem hi,
    List.getD_eq_getElem?_getD, List.getElem?_eq_getElem hi]
  rfl

theorem range_map_getD_lt (g : ℕ → List ℚ) {n i : ℕ} (hi : i < n) :
    ((List.range n).map g).getD i [] = g i := by
  have hi' : i < (List.range n).length := by
    rw [List.length_range]
    exact hi
  rw [List.getD_eq_getElem?_getD, List.getElem?_map, List.getElem?_eq_getElem hi']
  simp

/-! ## Claim theorems: C8 (sweep properties) -/

/-- Claim C8: for every sweep invocation (spec-modelled bootstrap oracle —
see `get_bayes_factor_over_escape_velocity`): the threshold list is
non-decreasing; it spans from the chosen lower bound
(`kicks.quantile(1/len)`) up to the maximum of the ordering parameter
observed in the candidate prior (`kicks.max()`), in both linear and log
spacing; the `median`/`low`/`high` lists have the same length as the
threshold list; and at every index
`low[i] ≤ median[i] ≤ high[i]` (5th percentile ≤ median ≤ 95th
percentile of that threshold's bootstrap samples). -/
theorem sweep_spec (kicks : List ℚ) (nBins : ℕ) (logScale : Bool) (refBF : ℚ)
    (trials : ℕ → List ℚ) (r : SweepResult)
    (hr : r = get_bayes_factor_over_escape_velocity kicks nBins logScale refBF trials)
    (hne : kicks ≠ []) (hpos : ∀ k ∈ kicks, 0 < k) (h2 : 2 ≤ nBins)
    (htr : ∀ i, trials i ≠ []) :
    r.escape_velocity.Pairwise (· ≤ ·) ∧
    r.escape_velocity.head? = some ((quantile kicks (1 / (kicks.length : ℚ)) : ℚ) : ℝ) ∧
    r.escape_velocity.getLast? = some ((listMax kicks : ℚ) : ℝ) ∧
    r.bayes_factor_median.length = r.escape_velocity.length ∧
    r.bayes_factor_low.length = r.escape_velocity.length ∧
    r.bayes_factor_high.length = r.escape_velocity.length ∧
    (∀ i, i < r.escape_velocity.length →
      r.bayes_factor_low.getD i 0 ≤ r.bayes_factor_median.getD i 0 ∧
      r.bayes_factor_median.getD i 0 ≤ r.bayes_factor_high.getD i 0) := by
  subst hr
  have hn1 : 1 ≤ kicks.length := List.length_pos.mpr hne
  have hlq : (0 : ℚ) < (kicks.length : ℚ) := by exact_mod_cast hn1
  have hq0 : (0 : ℚ) ≤ 1 / (kicks.length : ℚ) := by positivity
  have hq1 : 1 / (kicks.length : ℚ) ≤ 1 := by
    rw [div_le_one hlq]
    exact_mod_cast hn1
  obtain ⟨hlbmin, hlbub⟩ := quantile_mem_bounds kicks _ hne hq0 hq1
  have hlbpos : 0 < quantile kicks (1 / (kicks.length : ℚ)) :=
    lt_of_lt_of_le (hpos _ (listMin_mem hne)) hlbmin
  have hmain : (extract_kick_thresholds kicks nBins logScale).Pairwise (· ≤ ·) ∧
      (extract_kick_thresholds kicks nBins logScale).head?
        = some ((quantile kicks (1 / (kicks.length : ℚ)) : ℚ) : ℝ) ∧
      (extract_kick_thresholds kicks nBins logScale).getLast?
        = some ((listMax kicks : ℚ) : ℝ) := by
    cases logScale with
    | false =>
      simp only [extract_kick_thresholds, Bool.false_eq_true, if_false]
      refine ⟨?_, ?_, ?_⟩
      · rw [List.pairwise_map]
        apply List.Pairwise.imp ?_ (linspace_pairwise _ _ nBins hlbub)
        intro a b hab
        exact_mod_cast hab
      · rw [List.head?_map, linspace_head _ _ _ h2]
        rfl
      · rw [List.getLast?_map, linspace_getLast _ _ _ h2]
        rfl
    | true =>
      simp only [extract_kick_thresholds, if_true]
      have h10 : (1 : ℝ) < 10 := by norm_num
      have hlbR : (0 : ℝ) < ((quantile kicks (1 / (kicks.length : ℚ)) : ℚ) : ℝ) := by
        exact_mod_cast hlbpos
      have hubR : ((quantile kicks (1 / (kicks.length : ℚ)) : ℚ) : ℝ)
          ≤ ((listMax kicks : ℚ) : ℝ) := by exact_mod_cast hlbub
      have hab : Real.logb 10 ((quantile kicks (1 / (kicks.length : ℚ)) : ℚ) : ℝ)
          ≤ Real.logb 10 ((listMax kicks : ℚ) : ℝ) :=
        Real.logb_le_logb_of_le h10 hlbR hubR
      refine ⟨?_, ?_, ?_⟩
      · rw [List.pairwise_map]
        apply List.Pairwise.imp ?_ (linspaceR_pairwise _ _ nBins hab)
        intro a b hab'
        exact Real.rpow_le_rpow_of_exponent_le (by norm_num) hab'
      · rw [List.head?_map, linspaceR_head _ _ _ h2, Option.map_some']
        congr 1
        exact Real.rpow_logb (by norm_num) (by norm_num) hlbR
      · rw [List.getLast?_map, linspaceR_getLast _ _ _ h2, Option.map_some']
        congr 1
        exact Real.rpow_logb (by norm_num) (by norm_num) (lt_of_lt_of_le hlbR hubR)
  obtain ⟨hpw, hhead, hlast⟩ := hmain
  refine ⟨hpw, hhead, hlast, by simp [get_bayes_factor_over_escape_velocity],
    by simp [get_bayes_factor_over_escape_velocity],
    by simp [get_bayes_factor_over_escape_velocity], ?_⟩
  intro i hi
  have hi' : i < ((List.range (extract_kick_thresholds kicks nBins logScale).length).map
      fun j => (trials j).map fun b => b / refBF).length := by
    simpa [get_bayes_factor_over_escape_velocity] using hi
  have hsi : ((List.range (extract_kick_thresholds kicks nBins logScale).length).map
      fun j => (trials j).map fun b => b / refBF).getD i []
      = (trials i).map fun b => b / refBF := by
    apply range_map_getD_lt
    simpa [get_bayes_factor_over_escape_velocity] using hi
  have hsine : ((trials i).map fun b => b / refBF) ≠ [] := by
    apply List.ne_nil_of_length_pos.{0}
    rw [List.length_map]
    exact List.length_pos.mpr (htr i)
  constructor
  · show ((_ : SweepResult).bayes_factor_low).getD i 0 ≤ _
    simp only [get_bayes_factor_over_escape_velocity]
    rw [map_getD_eq _ hi', map_getD_eq _ hi', hsi]
    exact percentile_mono _ hsine (by norm_num) (by norm_num) (by norm_num)
  · simp only [get_bayes_factor_over_escape_velocity]
    rw [map_getD_eq _ hi', map_getD_eq _ hi', hsi]
    exact percentile_mono _ hsine (by norm_num) (by norm_num) (by norm_num)

/-- Closed witness for `sweep_spec`: a four-sample kick series, two linear
thresholds, a single bootstrap value per threshold. -/
theorem sweep_spec_witness :
    (get_bayes_factor_over_escape_velocity [1, 2, 3, 4] 2 false 1
        fun _ => [1]).escape_velocity.Pairwise (· ≤ ·) ∧
    (get_bayes_factor_over_escape_velocity [1, 2, 3, 4] 2 false 1
        fun _ => [1]).escape_velocity.head?
      = some ((quantile [1, 2, 3, 4] (1 / (([1, 2, 3, 4] : List ℚ).length : ℚ)) : ℚ) : ℝ) ∧
    (get_bayes_factor_over_escape_velocity [1, 2, 3, 4] 2 false 1
        fun _ => [1]).escape_velocity.getLast?
      = some ((listMax [1, 2, 3, 4] : ℚ) : ℝ) ∧
    (get_bayes_factor_over_escape_velocity [1, 2, 3, 4] 2 false 1
        fun _ => [1]).bayes_factor_median.length
      = (get_bayes_factor_over_escape_velocity [1, 2, 3, 4] 2 false 1
        fun _ => [1]).escape_velocity.length ∧
    (get_bayes_factor_over_escape_velocity [1, 2, 3, 4] 2 false 1
        fun _ => [1]).bayes_factor_low.length
      = (get_bayes_factor_over_escape_velocity [1, 2, 3, 4] 2 false 1
        fun _ => [1]).escape_velocity.length ∧
    (get_bayes_factor_over_escape_velocity [1, 2, 3, 4] 2 false 1
        fun _ => [1]).bayes_factor_high.length
      = (get_bayes_factor_over_escape_velocity [1, 2, 3, 4] 2 false 1
        fun _ => [1]).escape_velocity.length ∧
    (∀ i, i < (get_bayes_factor_over_escape_velocity [1, 2, 3, 4] 2 false 1
        fun _ => [1]).escape_velocity.length →
      (get_bayes_factor_over_escape_velocity [1, 2, 3, 4] 2 false 1
          fun _ => [1]).bayes_factor_low.getD i 0
        ≤ (get_bayes_factor_over_escape_velocity [1, 2, 3, 4] 2 false 1
          fun _ => [1]).bayes_factor_median.getD i 0 ∧
      (get_bayes_factor_over_escape_velocity [1, 2, 3, 4] 2 false 1
          fun _ => [1]).bayes_factor_median.getD i 0
        ≤ (get_bayes_factor_over_escape_velocity [1, 2, 3, 4] 2 false 1
          fun _ => [1]).bayes_factor_high.getD i 0) :=
  sweep_spec [1, 2, 3, 4] 2 false 1 (fun _ => [1]) _ rfl (by decide)
    (by with_unfolding_all decide) (by decide) (fun _ => List.cons_ne_nil 1 [])

end Archeo
